import Mathlib

/-
Verification of the loop-transformation and subroutine-assembly core of the
loki source-to-source toolkit (files src/loki/transform/transform_loop.py and
src/loki/subroutine.py).

The symbolic-expression algebra (module loki.expression: simplify, is_constant,
accumulate_polynomial_terms, symbolic_op, FindVariables) is an external
collaborator of the code under verification and is not part of this repository
snapshot; the specification treats it as a black-box service.  We therefore
model a symbolic expression by its classification under that service: either an
affine normal form (an integer constant plus integer coefficients over named
variables), an expression the service reports as containing a non-affine term,
or an expression from which no inequality can be derived at all.  Variable
names are Strings; the source lowercases names at its case-insensitive
comparison points and the embedding applies lowerStr at the same points.
-/

namespace Loki

/-- Lowercasing of a name, as the source applies str.lower at its
case-insensitive comparison points; expressed over the character list so that
it evaluates by kernel reduction. -/
def lowerStr (s : String) : String :=
  String.mk (s.data.map Char.toLower)

/-- Lexicographic code-point comparison of two character lists. -/
def charsLt : List Char → List Char → Bool
  | [], [] => false
  | [], _ :: _ => true
  | _ :: _, [] => false
  | c :: cs, d :: ds =>
    if c.toNat < d.toNat then true
    else if d.toNat < c.toNat then false
    else charsLt cs ds

/-- String order by code points, the order python applies when sorting names;
expressed over the character lists so that it evaluates by kernel reduction. -/
def strLt (a b : String) : Bool :=
  charsLt a.data b.data

/-- Insert the coefficient c for variable n into a coefficient list that is
sorted by name and free of zero coefficients, keeping it in that form. -/
def addTo : List (String × Int) → String → Int → List (String × Int)
  | [], n, c => if c = 0 then [] else [(n, c)]
  | (m, a) :: rest, n, c =>
    if strLt n m then (if c = 0 then (m, a) :: rest else (n, c) :: (m, a) :: rest)
    else if n = m then (if a + c = 0 then rest else (m, a + c) :: rest)
    else (m, a) :: addTo rest n c

/-- Normalise a raw coefficient list: sort by name, combine duplicate names,
drop zero coefficients. -/
def normCoeffs (l : List (String × Int)) : List (String × Int) :=
  l.foldl (fun acc p => addTo acc p.1 p.2) []

/-- Affine form of a symbolic expression: an integer constant plus a linear
combination of named variables.  This is the shape the external service
accumulate_polynomial_terms exposes for the bounds accepted by
Polyhedron.from_loop_ranges. -/
structure Affine where
  const : Int
  coeffs : List (String × Int)
deriving DecidableEq, Repr

/-- Normal form of an affine expression: the result of the black-box simplify
on an affine expression (coefficients sorted by name, duplicates combined,
zeros dropped). -/
def Affine.norm (e : Affine) : Affine :=
  ⟨e.const, normCoeffs e.coeffs⟩

/-- Sum of two affine expressions, returned in normal form. -/
def Affine.add (x y : Affine) : Affine :=
  ⟨x.const + y.const, y.coeffs.foldl (fun acc p => addTo acc p.1 p.2) (normCoeffs x.coeffs)⟩

/-- Difference of two affine expressions, returned in normal form; models
simplify applied to the pymbolic difference of the two expressions. -/
def Affine.sub (x y : Affine) : Affine :=
  Affine.add x ⟨-y.const, y.coeffs.map (fun p => (p.1, -p.2))⟩

/-- Test modelling is_constant after simplify: no variable term survives. -/
def Affine.isConst (e : Affine) : Bool :=
  normCoeffs e.coeffs = []

/-- Division of an affine expression by an integer, models simplify applied to
Quotient(e, c) in the exact-division cases produced by the bound rows of
Polyhedron (the coefficient of the solved variable is plus or minus one). -/
def Affine.divC (e : Affine) (c : Int) : Affine :=
  ⟨e.const / c, normCoeffs (e.coeffs.map (fun p => (p.1, p.2 / c)))⟩

/-- Symbolic expression as classified by the external algebra service:
affine, reported non-affine (some polynomial base has more than one factor),
or of a shape from which from_loop_ranges can derive no inequality (not a
constant, Variable, Sum or Product).  The last two constructors carry the
variable names FindVariables would report for the expression. -/
inductive BExpr where
  | affine (a : Affine)
  | nonAffine (vars : List String)
  | underivable (vars : List String)
deriving DecidableEq, Repr

/-- Names reported by FindVariables for an expression. -/
def BExpr.vars : BExpr → List String
  | .affine a => a.coeffs.map Prod.fst
  | .nonAffine vs => vs
  | .underivable vs => vs

/-- Loop range as taken from a Loop node or a pragma: start, stop and an
optional step, each a symbolic expression. -/
structure LoopRangeE where
  start : BExpr
  stop : BExpr
  step : Option BExpr
deriving DecidableEq, Repr

/-- Errors of the loop-transformation code, named after the error taxonomy of
the specification.  unsupportedLoopShape is the step assertion in
from_loop_ranges; nonAffineBound and cannotDeriveInequality are the two
ValueError sites of from_loop_ranges; the conflicting-directive constructors
are the two RuntimeError sites of loop_fusion. -/
inductive TErr where
  | unsupportedLoopShape
  | nonAffineBound
  | cannotDeriveInequality
  | conflictingCollapse
  | conflictingRanges
  | nestedLoopShape
deriving DecidableEq, Repr

/-- Halfspace representation of a polyhedron: integer matrix A (list of rows),
right-hand side b, and the list of (lowercased) variable names giving the
meaning of the columns. -/
structure Polyhedron where
  A : List (List Int)
  b : List Int
  vars : List String
deriving DecidableEq, Repr

/-- Insertion of a name into a list sorted by the String order. -/
def insName (n : String) : List String → List String
  | [] => [n]
  | m :: rest => if strLt n m then n :: m :: rest else m :: insName n rest

/-- Insertion sort on names, models the sorted() call over the variables that
FindVariables reports inside the loop-range expressions. -/
def sortNames (l : List String) : List String :=
  l.foldr insName []

/-- Vector of polyhedron variables for from_loop_ranges: the loop variables
first, then every other name appearing in the range expressions, sorted by
lowercased name and appended only if not present yet. -/
def collectVars (loopVars : List String) (ranges : List LoopRangeE) : List String :=
  let extra := ranges.flatMap
    (fun r => r.start.vars ++ r.stop.vars ++ (match r.step with
      | some e => e.vars
      | none => []))
  let base := loopVars.map lowerStr
  (sortNames (extra.map lowerStr)).foldl
    (fun acc v => if v ∈ acc then acc else acc ++ [v]) base

/-- Test of the step assertion in from_loop_ranges: the step must be absent or
the literal one. -/
def stepOk : Option BExpr → Bool
  | none => true
  | some e => e = BExpr.affine ⟨1, []⟩

/-- Build one inequality row of the polyhedron from one bound of a loop range,
following from_loop_ranges: for a lower bound start of variable j the row is
minus one at column j, the coefficient of every other variable of start at its
column, with right-hand side minus the constant of start; for an upper bound
the row is mirrored.  Expressions classified underivable or non-affine fail
with the corresponding error. -/
def boundRow (vars : List String) (j : Nat) (isLower : Bool) (e : BExpr) :
    Except TErr (List Int × Int) :=
  match e with
  | .underivable _ => .error .cannotDeriveInequality
  | .nonAffine _ => .error .nonAffineBound
  | .affine a =>
    let s := a.norm
    let bi := if isLower then -s.const else s.const
    let row0 := (List.replicate vars.length (0 : Int)).set j (if isLower then -1 else 1)
    let row := s.coeffs.foldl
      (fun r p => r.set (vars.indexOf (lowerStr p.1)) (if isLower then p.2 else -p.2)) row0
    .ok (row, bi)

/-- Row-building loop of from_loop_ranges over the paired loop variables and
ranges: for each pair, first the step assertion, then the lower-bound row,
then the upper-bound row; the first failure aborts the construction. -/
def fromLoopRangesGo (vars : List String) :
    List (String × LoopRangeE) → Except TErr (List (List Int) × List Int)
  | [] => .ok ([], [])
  | (v, r) :: rest =>
    if stepOk r.step then
      match boundRow vars (vars.indexOf (lowerStr v)) true r.start with
      | .error e => .error e
      | .ok (rowL, bL) =>
        match boundRow vars (vars.indexOf (lowerStr v)) false r.stop with
        | .error e => .error e
        | .ok (rowU, bU) =>
          match fromLoopRangesGo vars rest with
          | .error e => .error e
          | .ok (rows, bs) => .ok (rowL :: rowU :: rows, bL :: bU :: bs)
    else .error .unsupportedLoopShape

/-- Embedding of Polyhedron.from_loop_ranges: create the polyhedron of a loop
nest from its loop variables and ranges.  The source asserts equal lengths of
the two lists; the embedding pairs them positionally. -/
def Polyhedron.from_loop_ranges (loopVars : List String) (ranges : List LoopRangeE) :
    Except TErr Polyhedron :=
  let vars := collectVars loopVars ranges
  match fromLoopRangesGo vars (loopVars.zip ranges) with
  | .error e => .error e
  | .ok (rows, bs) => .ok ⟨rows, bs, vars⟩

/-- Solved bound expression of row i for variable column j, following the body
of Polyhedron.lower_bounds and upper_bounds: collect the terms of the row at
the columns other than j with nonzero entry, subtract them from the right-hand
side and divide by the entry at column j, simplifying the result. -/
def solveRow (p : Polyhedron) (j : Nat) (i : Nat) : Affine :=
  let row := p.A.getD i []
  let lhs := (List.range row.length).filterMap
    (fun k => if k ≠ j ∧ row.getD k 0 ≠ 0 then
        some (p.vars.getD k "", row.getD k 0) else none)
  Affine.divC ⟨p.b.getD i 0, lhs.map (fun q => (q.1, -q.2))⟩ ((row.getD j 0))

/-- Embedding of Polyhedron.lower_bounds for a column index: walk the rows in
order and, for every row with a negative entry in column j, append the solved
bound expression. -/
def Polyhedron.lower_bounds (p : Polyhedron) (j : Nat) : List Affine :=
  (List.range p.A.length).foldl
    (fun acc i => if (p.A.getD i []).getD j 0 < 0 then acc ++ [solveRow p j i] else acc) []

/-- Embedding of Polyhedron.upper_bounds for a column index: walk the rows in
order and, for every row with a positive entry in column j, append the solved
bound expression. -/
def Polyhedron.upper_bounds (p : Polyhedron) (j : Nat) : List Affine :=
  (List.range p.A.length).foldl
    (fun acc i => if (p.A.getD i []).getD j 0 > 0 then acc ++ [solveRow p j i] else acc) []

/-- Fused-loop bound expression: either a plain symbolic expression or an
inline call (min or max) applied to a list of bound expressions, as built by
loop_fusion when several merged bounds remain at a collapse level. -/
inductive FBound where
  | expr (e : BExpr)
  | call (fn : String) (args : List FBound)

/-- Loop range of the fused loop: bounds may be inline calls; an explicit
pragma range keeps its optional step. -/
structure FRange where
  start : FBound
  stop : FBound
  step : Option BExpr

/-- Merge step for one new lower bound against the already collected lower
bounds of a collapse level, following loop_fusion: the bound is adopted when
no bound exists yet, when it is constant-comparably smaller than an existing
one, or when it is not constant and no existing bound is known to be at most
it; adopting it drops every existing bound that is constant-comparably larger. -/
def mergeLower (acc : List Affine) (bound : Affine) : List Affine :=
  let diff := acc.map (fun b => bound.sub b)
  let isAnyNegative := diff.any (fun d => d.isConst && d.const < 0)
  let isAnyNotNegative := diff.any (fun d => d.isConst && d.const >= 0)
  let isNewBound := acc.isEmpty || isAnyNegative ||
    (!bound.isConst && !isAnyNotNegative)
  if isNewBound then
    ((acc.zip diff).filterMap
      (fun bd => if bd.2.isConst && bd.2.const < 0 then none else some bd.1)) ++ [bound]
  else acc

/-- Merge step for one new upper bound, the mirrored policy of mergeLower with
the comparison directions reversed. -/
def mergeUpper (acc : List Affine) (bound : Affine) : List Affine :=
  let diff := acc.map (fun b => bound.sub b)
  let isAnyPositive := diff.any (fun d => d.isConst && d.const > 0)
  let isAnyNotPositive := diff.any (fun d => d.isConst && d.const <= 0)
  let isNewBound := acc.isEmpty || isAnyPositive ||
    (!bound.isConst && !isAnyNotPositive)
  if isNewBound then
    ((acc.zip diff).filterMap
      (fun bd => if bd.2.isConst && bd.2.const > 0 then none else some bd.1)) ++ [bound]
  else acc

/-- Merged lower-bound list of one collapse level: fold every lower bound of
every iteration-space polyhedron, in group order, through mergeLower. -/
def mergedLowerBounds (polys : List Polyhedron) (level : Nat) : List Affine :=
  polys.foldl (fun acc p => (p.lower_bounds level).foldl mergeLower acc) []

/-- Merged upper-bound list of one collapse level: fold every upper bound of
every iteration-space polyhedron, in group order, through mergeUpper. -/
def mergedUpperBounds (polys : List Polyhedron) (level : Nat) : List Affine :=
  polys.foldl (fun acc p => (p.upper_bounds level).foldl mergeUpper acc) []

/-- Fused loop range of one collapse level, following loop_fusion lines
308 to 320 of transform_loop.py exactly: a single merged lower bound is used
directly, several are wrapped in a min call; a single merged upper bound is
used directly, but when several remain the max call is built with
as_tuple(lower_bounds) as its arguments, that is with the already collapsed
LOWER bound of the level (the argument-tuple of the max call never contains
the merged upper-bound list). -/
def fusedLevel (polys : List Polyhedron) (level : Nat) : FRange :=
  let lowers := mergedLowerBounds polys level
  let uppers := mergedUpperBounds polys level
  let lb : FBound := match lowers with
    | [l] => .expr (.affine l)
    | _ => .call "min" (lowers.map (fun a => .expr (.affine a)))
  let ub : FBound := match uppers with
    | [u] => .expr (.affine u)
    | _ => .call "max" [lb]
  ⟨lb, ub, none⟩

/-- Parameters of one loop-fusion pragma, as produced by the external pragma
parser get_pragma_parameters (not part of this snapshot; modelled from the
pragma syntax of the specification): an optional collapse depth and an
optional explicit range list, one start:stop pair per collapse level. -/
structure PragmaParams where
  collapse : Option Nat
  range : Option (List LoopRangeE)
deriving DecidableEq, Repr

/-- Nested-loop data of one annotated loop as extracted by _get_nested_loops:
the loop variables and ranges of the collapse-deep nest. -/
structure NestInfo where
  vars : List String
  ranges : List LoopRangeE
deriving DecidableEq, Repr

/-- Conversion of an explicitly stated pragma range into a fused range: the
stated bounds are used verbatim. -/
def toFRange (r : LoopRangeE) : FRange :=
  ⟨.expr r.start, .expr r.stop, r.step⟩

/-- Mapping of a fallible function over a list, stopping at the first error;
models a python list comprehension in which an element construction may
raise. -/
def mapME {a b : Type} (f : a → Except TErr b) : List a → Except TErr (List b)
  | [] => .ok []
  | x :: l =>
    match f x with
    | .error e => .error e
    | .ok y =>
      match mapME f l with
      | .error e => .error e
      | .ok ys => .ok (y :: ys)

/-- Collapse-parameter check of a fusion group, lines 248 to 251 of
transform_loop.py: the list of raw collapse parameters must equal the
replication of its first entry (an absent parameter is a value of its own,
distinct from every explicit value); on success the depth is the first entry,
with one as the default when the parameter is absent everywhere. -/
def collapseCheck (params : List PragmaParams) : Except TErr Nat :=
  let collapseL := params.map (fun p => p.collapse)
  if collapseL ≠ List.replicate collapseL.length (collapseL.getD 0 none) then
    .error .conflictingCollapse
  else .ok ((collapseL.getD 0 none).getD 1)

/-- Explicit-range check of a fusion group, lines 253 to 262: collect the set
of distinct explicitly stated pragma ranges; more than one distinct range is
an error, exactly one is returned, none means the bounds are to be computed. -/
def rangeSetCheck (params : List PragmaParams) : Except TErr (Option (List LoopRangeE)) :=
  let rset := (params.filterMap (fun p => p.range)).dedup
  if rset.length = 0 ∨ rset.length = 1 then .ok rset.head?
  else .error .conflictingRanges

/-- Fused loop ranges of one fusion group, following loop_fusion lines 244 to
320: check that all raw collapse parameters agree, check that at most one
distinct explicit pragma range is stated, construct the iteration-space
polyhedron of every loop of the group unconditionally, then take the explicit
range if stated and otherwise merge the polyhedra bounds level by level. -/
def fuseGroupRanges (group : List (PragmaParams × NestInfo)) :
    Except TErr (List FRange) := do
  let params := group.map Prod.fst
  let depth ← collapseCheck params
  let expl ← rangeSetCheck params
  let polys ← mapME (fun g => Polyhedron.from_loop_ranges g.2.vars g.2.ranges) group
  match expl with
  | some r => .ok (r.map toFRange)
  | none => .ok ((List.range depth).map (fusedLevel polys))

/-- Pragma attached to a loop, after classification by the external helpers
is_loki_pragma and get_pragma_parameters (not in this snapshot; modelled from
the pragma syntax of the specification): a loop-fusion marker with its group
identifier (defaulted to the string default by the parameter lookup) and
parameters, or some other pragma. -/
inductive PragKind where
  | fusion (group : String) (params : PragmaParams)
  | other (id : Nat)
deriving DecidableEq, Repr

/-- Guard comparison generated by loop_fusion body alignment: the fused loop
variable compared against an original bound, with direction at-least or
at-most. -/
structure CondCmp where
  v : String
  isGe : Bool
  rhs : FBound

/-- Node of a routine body: a loop (with optional pragma, loop variable,
bounds and nested body), an opaque statement carrying the names of the
variables it uses, a comment, or a conditional wrapping a body.  Bounds are
FRange values so that fused loops, whose bounds may be inline min and max
calls, live in the same tree as the original loops. -/
inductive BodyNode where
  | loop (pragma : Option PragKind) (var : String) (bounds : FRange) (body : List BodyNode)
  | stmt (id : Nat) (uses : List String)
  | comment (text : String)
  | cond (conds : List CondCmp) (body : List BodyNode)

mutual

/-- Names of the variables of a fused bound, as FindVariables would report
them: the names inside the expression, or inside all arguments of a call. -/
def fbVars : FBound → List String
  | .expr e => e.vars
  | .call _ args => fbVarsList args

/-- Names of the variables of a list of fused bounds. -/
def fbVarsList : List FBound → List String
  | [] => []
  | f :: rest => fbVars f ++ fbVarsList rest

end

/-- Classification of a fused bound expression as a range bound for
from_loop_ranges: a plain expression keeps its classification; an inline call
is neither a constant nor a Variable, Sum or Product, so the service can
derive no inequality from it. -/
def fbToBExpr : FBound → BExpr
  | .expr e => e
  | .call f args => .underivable (fbVarsList (FBound.call f args :: []))

/-- Range of a loop node reread as a plain loop range for polyhedron
construction. -/
def frangeToRangeE (r : FRange) : LoopRangeE :=
  ⟨fbToBExpr r.start, fbToBExpr r.stop, r.step⟩

/-- Test for a Loop IR node. -/
def isLoopNode : BodyNode → Bool
  | .loop _ _ _ _ => true
  | _ => false

/-- Embedding of _get_nested_loops: starting from a loop with variable v,
bounds bnds and body, descend depth minus one times into the unique Loop node
of the current body (the source asserts there is exactly one), collecting the
variables, ranges and bodies of the nest outermost first. -/
def getNestedGo (v : String) (bnds : FRange) (body : List BodyNode) :
    Nat → Except TErr (List String × List FRange × List (List BodyNode))
  | 0 => .ok ([v], [bnds], [body])
  | 1 => .ok ([v], [bnds], [body])
  | d + 2 =>
    match body.filter isLoopNode with
    | [BodyNode.loop _ v2 b2 body2] =>
      match getNestedGo v2 b2 body2 (d + 1) with
      | .error e => .error e
      | .ok (vs, rs, bs) => .ok (v :: vs, bnds :: rs, body :: bs)
    | _ => .error .nestedLoopShape

/-- Rename one variable use under the substitution map built by loop_fusion
body alignment: the pairs of original loop variable and fused variable, where
a pair acts only when the two names differ and the use matches the original
name lowercased against the loop variable as written; later pairs overwrite
earlier ones in the python dict. -/
def substUse (pairs : List (String × String)) (u : String) : String :=
  match pairs.reverse.find? (fun p => p.1 ≠ p.2 ∧ lowerStr u = p.1) with
  | some p => p.2
  | none => u

mutual

/-- Substitution of fused loop variables through a body node; the embedded
statements carry only the names of their variable uses, so the substitution
renames those names (and loop-variable fields of nested loops). -/
def substNode (pairs : List (String × String)) : BodyNode → BodyNode
  | .loop p v b body => .loop p (substUse pairs v) b (substList pairs body)
  | .stmt i us => .stmt i (us.map (substUse pairs))
  | .comment t => .comment t
  | .cond cs body => .cond cs (substList pairs body)

/-- Substitution of fused loop variables through a body. -/
def substList (pairs : List (String × String)) : List BodyNode → List BodyNode
  | [] => []
  | n :: rest => substNode pairs n :: substList pairs rest

end

/-- Inequality test between an original loop bound and a fused bound, models
symbolic_op with operator ne through the black-box algebra: two affine
expressions differ when their difference does not simplify to zero; other
expression pairs are compared structurally; an inline call never equals a
plain bound. -/
def fbNe (a b : FBound) : Bool :=
  match a, b with
  | .expr (.affine x), .expr (.affine y) => !(x.sub y = ⟨0, []⟩)
  | .expr e1, .expr e2 => e1 ≠ e2
  | _, _ => true

/-- Fused replacement of one fusion group, following loop_fusion lines 244 to
360: the parameter checks, nested-loop extraction, fused range computation
(via fuseGroupRanges, which constructs the polyhedra), variable substitution
and conditional guarding of each body, and the final nesting of the fused
loop headers innermost to outermost.  The result is the replacement node list
(without the leading comment). -/
def fuseGroupFull (loopList : List (PragmaParams × String × FRange × List BodyNode)) :
    Except TErr (List BodyNode) := do
  let params := loopList.map (fun x => x.1)
  let depth ← collapseCheck params
  let _ ← rangeSetCheck params
  let nests ← mapME (fun x => getNestedGo x.2.1 x.2.2.1 x.2.2.2 depth) loopList
  let franges ← fuseGroupRanges
    (params.zip (nests.map (fun n => NestInfo.mk n.1 (n.2.1.map frangeToRangeE))))
  let fusionVariables := (nests.getD 0 ([], [], [])).1
  let fusionBodies := nests.map (fun ni =>
    let body := (ni.2.2).getLastD []
    let pairs := ni.1.zip fusionVariables
    let body := substList pairs body
    let conds := (ni.2.1.zip (franges.zip fusionVariables)).foldl
      (fun acc lrv =>
        acc ++ (if fbNe lrv.1.start lrv.2.1.start then
                  [CondCmp.mk lrv.2.2 true lrv.1.start] else [])
           ++ (if fbNe lrv.1.stop lrv.2.1.stop then
                  [CondCmp.mk lrv.2.2 false lrv.1.stop] else [])) []
    if conds.isEmpty then body else [BodyNode.cond conds body])
  let init := fusionBodies.flatten
  .ok (((fusionVariables.zip franges).reverse).foldl
    (fun acc vr => [BodyNode.loop none vr.1 vr.2 acc]) init)

mutual

/-- Embedding of FindNodes Loop for one node: the node itself when it is a
loop, followed by all loops of its nested body, depth first. -/
def findLoopsNode : BodyNode → List BodyNode
  | .loop p v b body => BodyNode.loop p v b body :: findLoopsList body
  | .cond _ body => findLoopsList body
  | _ => []

/-- Embedding of FindNodes Loop for a body. -/
def findLoopsList : List BodyNode → List BodyNode
  | [] => []
  | n :: rest => findLoopsNode n ++ findLoopsList rest

end

/-- Group identifier of a loop node annotated with a loop-fusion pragma. -/
def fusionTag : BodyNode → Option String
  | .loop (some (.fusion g _)) _ _ _ => some g
  | _ => none

/-- Append an annotated loop to its fusion group, creating the group at the
end on first appearance; models the defaultdict of loop_fusion. -/
def addGroup (gs : List (String × List (PragmaParams × String × FRange × List BodyNode)))
    (g : String) (item : PragmaParams × String × FRange × List BodyNode) :
    List (String × List (PragmaParams × String × FRange × List BodyNode)) :=
  if gs.any (fun p => p.1 = g) then
    gs.map (fun p => if p.1 = g then (g, p.2 ++ [item]) else p)
  else gs ++ [(g, [item])]

/-- Fusion groups of a routine body: every loop annotated with a loop-fusion
pragma, in FindNodes order, sorted into its group. -/
def fusionGroups (body : List BodyNode) :
    List (String × List (PragmaParams × String × FRange × List BodyNode)) :=
  (findLoopsList body).foldl
    (fun gs n => match n with
      | .loop (some (.fusion g ps)) v b bd => addGroup gs g (ps, v, b, bd)
      | _ => gs) []

mutual

/-- Transformer walk of loop_fusion applied to one node: the first annotated
loop of each group (in traversal order, which is how the identity-keyed map of
the source singles out the first loop) is replaced by its replacement list,
every later loop of the group is deleted, and other nodes are rebuilt with
their bodies transformed; seen collects the groups already replaced. -/
def transNode (rep : String → Option (List BodyNode)) (seen : List String) :
    BodyNode → List String × List BodyNode
  | .loop (some (.fusion g ps)) v b bd =>
    if g ∈ seen then (seen, [])
    else (seen ++ [g], (rep g).getD [BodyNode.loop (some (.fusion g ps)) v b bd])
  | .loop p v b bd =>
    let r := transList rep seen bd
    (r.1, [BodyNode.loop p v b r.2])
  | .cond cs bd =>
    let r := transList rep seen bd
    (r.1, [BodyNode.cond cs r.2])
  | n => (seen, [n])

/-- Transformer walk of loop_fusion applied to a body, threading the set of
already replaced groups left to right. -/
def transList (rep : String → Option (List BodyNode)) (seen : List String) :
    List BodyNode → List String × List BodyNode
  | [] => (seen, [])
  | n :: rest =>
    let a := transNode rep seen n
    let b := transList rep a.1 rest
    (b.1, a.2 ++ b.2)

end

/-- Routine as loop_fusion sees it: an opaque spec and a body tree.  The
transformation never touches the spec. -/
structure Routine where
  spec : Nat
  body : List BodyNode

/-- Embedding of loop_fusion: collect the fusion groups of the body; when no
loop carries a loop-fusion pragma return the routine unchanged before any
transformation, otherwise compute every group replacement (an explanatory
comment followed by the fused loop nest) and apply the transformer walk to
the body. -/
def loop_fusion (r : Routine) : Except TErr Routine := do
  let groups := fusionGroups r.body
  if groups.isEmpty then .ok r
  else do
    let reps ← mapME
      (fun (p : String × List (PragmaParams × String × FRange × List BodyNode)) =>
        (fuseGroupFull p.2).map
          (fun fl => (p.1, BodyNode.comment ("! Loki transformation loop-fusion group " ++ p.1) :: fl)))
      groups
    .ok ⟨r.spec, (transList (fun g => (reps.find? (fun q => q.1 = g)).map (fun q => q.2)) [] r.body).2⟩

/-- Parameters of a loki pragma relevant to loop_fission, after classification
by is_loki_pragma and get_pragma_parameters (external helpers, modelled from
the pragma syntax of the specification): whether the pragma is a loop-fission
marker, and its promote list (empty when the parameter is absent). -/
structure FPrag where
  fission : Bool
  promote : List String
deriving DecidableEq, Repr

/-- Child node of a loop body as loop_fission sees it: a bare pragma line, or
an opaque statement optionally carrying an attached pragma. -/
inductive FNode where
  | prag (p : FPrag)
  | stmt (id : Nat) (pragma : Option FPrag)
deriving DecidableEq, Repr

/-- Test of lines 386 to 391 of transform_loop.py: a child is a fission split
point when it is a bare loop-fission pragma or a statement with an attached
loop-fission pragma. -/
def isFissionMarker : FNode → Bool
  | .prag p => p.fission
  | .stmt _ (some p) => p.fission
  | .stmt _ none => false

/-- Start of the segment opened at a split point: a bare pragma opens an empty
segment, a statement with an attached marker opens the segment with itself,
its pragma stripped (ch.clone with pragma None). -/
def markerHead : FNode → List FNode
  | .prag _ => []
  | .stmt i _ => [.stmt i none]

/-- Body splitting loop of loop_fission, lines 396 to 409: walk the children
with the current segment as accumulator; a split point closes the current
segment and opens a new one; a trailing nonempty segment is kept, a trailing
empty one is dropped. -/
def splitBodies (cur : List FNode) : List FNode → List (List FNode)
  | [] => if cur.isEmpty then [] else [cur]
  | ch :: rest =>
    if isFissionMarker ch then cur :: splitBodies (markerHead ch) rest
    else splitBodies (cur ++ [ch]) rest

/-- Loop bounds of a fission candidate with affine (or constant) bounds, the
shape required for the trip-count computation of the promotion code. -/
structure LoopBounds where
  start : Affine
  stop : Affine
  step : Option Affine
deriving DecidableEq, Repr

/-- Loop as loop_fission sees it: loop variable, bounds, and a body of child
nodes. -/
structure FLoop where
  var : String
  bounds : LoopBounds
  body : List FNode
deriving DecidableEq, Repr

/-- Fission pragma of a loop-body child, when present. -/
def markerPrag : FNode → Option FPrag
  | .prag p => if p.fission then some p else none
  | .stmt _ (some p) => if p.fission then some p else none
  | .stmt _ none => none

/-- Loops produced by loop_fission for one annotated loop, lines 396 to 409
and 439 to 441: one loop per body segment, each carrying the original loop
variable and the original bounds.  Under the claims considered the promote
lists are empty, so the subscript substitution of lines 429 to 437 (which
rewrites dimensions inside statement expressions, opaque in this embedding)
is the identity and is omitted here. -/
def loop_fission_loops (l : FLoop) : List FLoop :=
  (splitBodies [] l.body).map (fun b => ⟨l.var, l.bounds, b⟩)

/-- Fission pragmas of a loop body in order, the pragmas dict of the source. -/
def loopFissionPrags (l : FLoop) : List FPrag :=
  l.body.filterMap markerPrag

/-- Promote set of one annotated loop: the names of every promote parameter of
its fission markers, lowercased; the set comprehension of the source is
modelled by deduplication (whitespace stripping happens in the external
parser).  Per-name updates are independent, so the unspecified iteration
order of the python set cannot influence the recorded shapes. -/
def loopPromoteNames (l : FLoop) : List String :=
  (((loopFissionPrags l).flatMap (fun p => p.promote)).map lowerStr).dedup

/-- Trip count of a loop, line 412: simplify of stop minus start plus one. -/
def loop_length (l : FLoop) : Affine :=
  (l.bounds.stop.sub l.bounds.start).add ⟨1, []⟩

/-- Strict comparison through the black-box algebra, models symbolic_op with
operator lt: decided when the difference simplifies to a constant, false
otherwise. -/
def sLt (a b : Affine) : Bool :=
  let d := a.sub b
  d.isConst && d.const < 0

/-- Lookup in the promoted-shapes accumulator (a case-insensitive dict whose
keys are already lowercased by the promote-set construction). -/
def lookupDim (dims : List (String × List Affine)) (n : String) : Option (List Affine) :=
  (dims.find? (fun p => p.1 = n)).map (fun p => p.2)

/-- Store in the promoted-shapes accumulator, overwriting an existing entry in
place or appending a new one. -/
def setDim (dims : List (String × List Affine)) (n : String) (s : List Affine) :
    List (String × List Affine) :=
  if dims.any (fun p => p.1 = n) then
    dims.map (fun p => if p.1 = n then (n, s) else p)
  else dims ++ [(n, s)]

/-- Promotion-shape update for one variable of one loop, lines 415 to 427: if
the variable is already marked for promotion, enlarge the trailing dimension
to the loop trip count when the recorded one is comparably smaller, never
shrinking it; otherwise record the declared shape of the variable extended by
the trip count. -/
def promoteUpdate (varShapes : String → List Affine) (dims : List (String × List Affine))
    (n : String) (len : Affine) : List (String × List Affine) :=
  match lookupDim dims n with
  | some shape =>
    let shape2 := if sLt (shape.getLastD ⟨0, []⟩) len then shape.dropLast ++ [len] else shape
    setDim dims n shape2
  | none => setDim dims n (varShapes n ++ [len])

/-- Promoted-variable shapes accumulated over one loop_fission pass, threading
the accumulator through every annotated loop in body order.  Loops without
fission markers contribute no promote names and leave the accumulator
unchanged, as the source skips them. -/
def fissionPassDims (varShapes : String → List Affine) (loops : List FLoop) :
    List (String × List Affine) :=
  loops.foldl
    (fun dims l => (loopPromoteNames l).foldl
      (fun dims n => promoteUpdate varShapes dims n (loop_length l)) dims) []

/-- Declared shape of a variable after the final substitution of lines 448 to
453: the recorded promoted shape when the variable was promoted, its original
shape otherwise. -/
def shapeAfterFission (varShapes : String → List Affine) (loops : List FLoop)
    (n : String) : List Affine :=
  match lookupDim (fissionPassDims varShapes loops) n with
  | some s => s
  | none => varShapes n

/-- Variable named in an allocation statement: its name, whether it is an
Array reference, and its explicit dimensions (the index tuple of the
subscript). -/
structure AllocVar where
  name : String
  isArray : Bool
  dims : List Nat
deriving DecidableEq, Repr

/-- Allocation statement: the allocated variables and, optionally, the shape
of the resolved type of a data source from which the shape is copied. -/
structure Alloc where
  vars : List AllocVar
  dataSource : Option (List Nat)
deriving DecidableEq, Repr

/-- Variable occurrence in the spec or body: its name and the shape stored on
its type, if any.  Dimension expressions are opaque identifiers. -/
structure Occ where
  name : String
  shape : Option (List Nat)
deriving DecidableEq, Repr

/-- Insert into a python dict modelled as an ordered association list: an
existing key is overwritten in place, a new key is appended. -/
def dictInsert (m : List (String × List Nat)) (k : String) (v : List Nat) :
    List (String × List Nat) :=
  if m.any (fun p => p.1 = k) then m.map (fun p => if p.1 = k then (k, v) else p)
  else m ++ [(k, v)]

/-- Lookup in a python dict modelled as an ordered association list. -/
def dictGet (m : List (String × List Nat)) (k : String) : Option (List Nat) :=
  (m.find? (fun p => p.1 = k)).map (fun p => p.2)

/-- Allocation map of Subroutine._infer_allocatable_shapes, lines 91 to 98 of
subroutine.py: walk the allocations of the body in order and, for every Array
variable of each, record under the lowercased name the shape of the data
source when one is given and the explicit dimensions of the variable
otherwise; a later allocation overwrites an earlier entry. -/
def alloc_map (allocs : List Alloc) : List (String × List Nat) :=
  allocs.foldl
    (fun m a => a.vars.foldl
      (fun m v => if v.isArray then
          dictInsert m (lowerStr v.name)
            (match a.dataSource with
             | some s => s
             | none => v.dims)
        else m) m) []

/-- Shape attachment of _infer_allocatable_shapes over a list of variable
occurrences, lines 99 to 110: every occurrence whose lowercased name is in the
allocation map gets a clone of its type with the recorded shape; every other
occurrence is left unchanged. -/
def attachShapes (m : List (String × List Nat)) (occs : List Occ) : List Occ :=
  occs.map (fun o => match dictGet m (lowerStr o.name) with
    | some s => ⟨o.name, some s⟩
    | none => o)

/-- Embedding of Subroutine._infer_allocatable_shapes: build the allocation
map from the allocations of the body, then attach the recorded shapes to the
variable occurrences of spec and body.  The occurrence lists carry the
variable occurrences FindVariables reports for the two sections. -/
def infer_allocatable_shapes (spec body : List Occ) (allocs : List Alloc) :
    List Occ × List Occ :=
  let m := alloc_map allocs
  (attachShapes m spec, attachShapes m body)

/-- Variable as declared in a subroutine spec: name and the intent attribute
of its type (other type payload is irrelevant to the setters). -/
structure SVar where
  name : String
  intent : Option Nat
deriving DecidableEq, Repr

/-- Declaration: an ordered list of variables sharing one type. -/
structure Decl where
  vars : List SVar
deriving DecidableEq, Repr

/-- Node of a subroutine spec: a declaration or some other statement. -/
inductive SpecNode where
  | decl (d : Decl)
  | other (id : Nat)
deriving DecidableEq, Repr

/-- Subroutine as the variables and arguments setters see it: the spec section
and the ordered dummy-argument name list (stored lowercased). -/
structure Sub where
  spec : List SpecNode
  dummies : List String
deriving DecidableEq, Repr

/-- Declared variables of a subroutine: the variables of every declaration of
the spec, flattened in order (the variables property of Subroutine). -/
def subVariables (r : Sub) : List SVar :=
  r.spec.flatMap (fun n => match n with
    | .decl d => d.vars
    | .other _ => [])

/-- Error of the arguments setter: the assertion that a newly declared
argument carries an intent. -/
inductive SErr where
  | missingIntent
deriving DecidableEq, Repr

/-- Embedding of the Subroutine.variables setter, lines 381 to 412 of
subroutine.py: append a single-variable declaration for every given variable
not yet declared (membership against the declarations before any appending),
then filter every declaration down to the given variables, removing
declarations that become empty, and finally drop every dummy argument whose
lowercased name is not among the lowercased names of the given variables. -/
def setVariables (r : Sub) (vs : List SVar) : Sub :=
  let declared := subVariables r
  let spec1 := r.spec ++ (vs.filter (fun v => v ∉ declared)).map (fun v => SpecNode.decl ⟨[v]⟩)
  let spec2 := spec1.filterMap (fun n => match n with
    | .decl d =>
      let nv := d.vars.filter (fun v => v ∈ vs)
      if nv.length > 0 then some (SpecNode.decl ⟨nv⟩) else none
    | .other k => some (.other k))
  let varnames := vs.map (fun v => lowerStr v.name)
  ⟨spec2, r.dummies.filter (fun a => lowerStr a ∈ varnames)⟩

/-- One step of the appending loop of the arguments setter: an argument not
declared before the assignment is appended as a fresh declaration after the
assertion that it carries an intent. -/
def appendArg (declared : List SVar) (spec : List SpecNode) (arg : SVar) :
    Except SErr (List SpecNode) :=
  if arg ∈ declared then .ok spec
  else match arg.intent with
    | none => .error .missingIntent
    | some _ => .ok (spec ++ [SpecNode.decl ⟨[arg]⟩])

/-- Folding appendArg over the argument list. -/
def appendArgs (declared : List SVar) : List SpecNode → List SVar → Except SErr (List SpecNode)
  | spec, [] => .ok spec
  | spec, a :: rest =>
    match appendArg declared spec a with
    | .error e => .error e
    | .ok spec2 => appendArgs declared spec2 rest

/-- Embedding of the Subroutine.arguments setter, lines 430 to 450 of
subroutine.py: append a declaration for every argument not yet declared
(membership against the declarations before any appending; a new argument
must carry an intent), never removing any declaration, and replace the dummy
list by the lowercased names of the given arguments. -/
def setArguments (r : Sub) (args : List SVar) : Except SErr Sub :=
  let declared := subVariables r
  match appendArgs declared r.spec args with
  | .error e => .error e
  | .ok spec2 => .ok ⟨spec2, args.map (fun a => lowerStr a.name)⟩

/-- Fusion group used for the C1 defect exhibit: two single-level loops over
one to n and one to m, no explicit pragma ranges, no collapse parameters. -/
def c1group : List (PragmaParams × NestInfo) :=
  [(⟨none, none⟩, ⟨["i"], [⟨.affine ⟨1, []⟩, .affine ⟨0, [("n", 1)]⟩, none⟩]⟩),
   (⟨none, none⟩, ⟨["i"], [⟨.affine ⟨1, []⟩, .affine ⟨0, [("m", 1)]⟩, none⟩]⟩)]

/-- C1: the claim states that when several merged upper bounds remain at a
collapse level, the fused upper bound is a max inline call whose arguments
are exactly the merged upper-bound list.  On the code this fails: for a group
of two loops over one to n and one to m the merged upper-bound list of level
zero is the two bounds n and m, yet the fused range produced by the code is a
max call whose single argument is the collapsed lower bound one, because line
318 of transform_loop.py passes as_tuple of the lower bounds to the max call.
The specification itself flags this code path as a latent defect. -/
theorem loop_fusion_c1_max_args :
    fuseGroupRanges c1group
      = .ok [⟨.expr (.affine ⟨1, []⟩), .call "max" [.expr (.affine ⟨1, []⟩)], none⟩]
    ∧ (mapME (fun g => Polyhedron.from_loop_ranges g.2.vars g.2.ranges) c1group).map
        (fun polys => mergedUpperBounds polys 0)
      = .ok [⟨0, [("n", 1)]⟩, ⟨0, [("m", 1)]⟩]
    ∧ ([Affine.mk 0 [("n", 1)], Affine.mk 0 [("m", 1)]].map
        (fun a => FBound.expr (.affine a)) ≠ [FBound.expr (.affine ⟨1, []⟩)]) := by
  refine ⟨rfl, rfl, ?_⟩
  intro h
  exact absurd (congrArg List.length h) (by decide)

/-- Test for the affine classification of an expression. -/
def BExpr.isAffine : BExpr → Bool
  | .affine _ => true
  | .nonAffine _ => false
  | .underivable _ => false

theorem boundRow_ok_of_affine (vars : List String) (j : Nat) (low : Bool) (e : BExpr)
    (h : e.isAffine = true) : ∃ rb, boundRow vars j low e = .ok rb := by
  cases e with
  | affine a => exact ⟨_, rfl⟩
  | nonAffine vs => simp [BExpr.isAffine] at h
  | underivable vs => simp [BExpr.isAffine] at h

theorem fromLoopRangesGo_error_of_bad_step (vars : List String) :
    ∀ l : List (String × LoopRangeE), l.any (fun vr => !stepOk vr.2.step) = true →
      ∃ er, fromLoopRangesGo vars l = .error er := by
  intro l
  induction l with
  | nil => intro h; simp at h
  | cons hd tl ih =>
    intro h
    obtain ⟨v, r⟩ := hd
    by_cases hs : stepOk r.step
    · have htl : tl.any (fun vr => !stepOk vr.2.step) = true := by
        simpa [hs] using h
      obtain ⟨er, her⟩ := ih htl
      cases hL : boundRow vars (vars.indexOf (lowerStr v)) true r.start with
      | error e => exact ⟨e, by simp [fromLoopRangesGo, hs, hL]⟩
      | ok rbL =>
        cases hU : boundRow vars (vars.indexOf (lowerStr v)) false r.stop with
        | error e => exact ⟨e, by simp [fromLoopRangesGo, hs, hL, hU]⟩
        | ok rbU =>
          exact ⟨er, by simp [fromLoopRangesGo, hs, hL, hU, her]⟩
    · exact ⟨.unsupportedLoopShape, by simp [fromLoopRangesGo, hs]⟩

theorem fromLoopRangesGo_unsupported (vars : List String) (v : String) (r : LoopRangeE)
    (post : List (String × LoopRangeE)) (hr : stepOk r.step = false) :
    ∀ pre : List (String × LoopRangeE),
      (∀ p ∈ pre, stepOk p.2.step = true ∧ p.2.start.isAffine = true ∧ p.2.stop.isAffine = true) →
      fromLoopRangesGo vars (pre ++ (v, r) :: post) = .error .unsupportedLoopShape := by
  intro pre
  induction pre with
  | nil => intro _; simp [fromLoopRangesGo, hr]
  | cons hd tl ih =>
    intro hpre
    obtain ⟨hstep, hstart, hstop⟩ := hpre hd (by simp)
    obtain ⟨v0, r0⟩ := hd
    obtain ⟨rbL, hL⟩ := boundRow_ok_of_affine vars (vars.indexOf (lowerStr v0)) true r0.start hstart
    obtain ⟨rbU, hU⟩ := boundRow_ok_of_affine vars (vars.indexOf (lowerStr v0)) false r0.stop hstop
    have htl := ih (fun p hp => hpre p (by simp [hp]))
    simp only [List.cons_append, fromLoopRangesGo, hstep, if_true, hL, hU]
    rw [show tl.append ((v, r) :: post) = tl ++ (v, r) :: post from rfl, htl]

/-- C2 (amended): whenever some range of the nest has a step that is present
and not the literal one, from_loop_ranges fails and no polyhedron is
constructed; the failure is the UnsupportedLoopShapeError of the
specification (the step assertion) provided every range processed before the
offending one has affine start and stop bounds and a supported step — an
earlier non-affine or underivable bound fails first with its own error, so
the error type of the original claim is not guaranteed for every such list. -/
theorem from_loop_ranges_c2 (loopVars : List String) (ranges : List LoopRangeE) :
    ((loopVars.zip ranges).any (fun vr => !stepOk vr.2.step) = true →
      ∃ er, Polyhedron.from_loop_ranges loopVars ranges = .error er)
    ∧ (∀ pre v r post, loopVars.zip ranges = pre ++ (v, r) :: post →
        stepOk r.step = false →
        (∀ p ∈ pre, stepOk p.2.step = true ∧ p.2.start.isAffine = true ∧
          p.2.stop.isAffine = true) →
        Polyhedron.from_loop_ranges loopVars ranges = .error .unsupportedLoopShape) := by
  constructor
  · intro h
    obtain ⟨er, her⟩ := fromLoopRangesGo_error_of_bad_step (collectVars loopVars ranges) _ h
    exact ⟨er, by simp [Polyhedron.from_loop_ranges, her]⟩
  · intro pre v r post hsplit hr hpre
    have := fromLoopRangesGo_unsupported (collectVars loopVars ranges) v r post hr pre hpre
    rw [← hsplit] at this
    simp [Polyhedron.from_loop_ranges, this]

/-- C2 counterexample: a nest whose first range has a non-affine lower bound
and whose second range has the step two fails with the NonAffineBoundError of
the first range, not with UnsupportedLoopShapeError, although the list
contains a range with a step that is present and not the literal one. -/
theorem from_loop_ranges_c2_counter :
    Polyhedron.from_loop_ranges ["i", "k"]
      [⟨.nonAffine ["n"], .affine ⟨10, []⟩, none⟩,
       ⟨.affine ⟨1, []⟩, .affine ⟨5, []⟩, some (.affine ⟨2, []⟩)⟩]
      = .error .nonAffineBound
    ∧ stepOk (some (.affine ⟨2, []⟩)) = false
    ∧ some (BExpr.affine ⟨2, []⟩) ≠ (none : Option BExpr)
    ∧ TErr.nonAffineBound ≠ TErr.unsupportedLoopShape :=
  ⟨rfl, rfl, by decide, by decide⟩

/-- Witness for C2: a single loop over one to five with step two is rejected
with UnsupportedLoopShapeError, and some error is guaranteed. -/
theorem from_loop_ranges_c2_witness :
    Polyhedron.from_loop_ranges ["i"]
      [⟨.affine ⟨1, []⟩, .affine ⟨5, []⟩, some (.affine ⟨2, []⟩)⟩]
      = .error .unsupportedLoopShape
    ∧ ∃ er, Polyhedron.from_loop_ranges ["i"]
      [⟨.affine ⟨1, []⟩, .affine ⟨5, []⟩, some (.affine ⟨2, []⟩)⟩] = .error er := by
  constructor
  · exact (from_loop_ranges_c2 ["i"]
      [⟨.affine ⟨1, []⟩, .affine ⟨5, []⟩, some (.affine ⟨2, []⟩)⟩]).2
      [] "i" ⟨.affine ⟨1, []⟩, .affine ⟨5, []⟩, some (.affine ⟨2, []⟩)⟩ [] rfl rfl
      (fun p hp => absurd hp (List.not_mem_nil p))
  · exact (from_loop_ranges_c2 ["i"]
      [⟨.affine ⟨1, []⟩, .affine ⟨5, []⟩, some (.affine ⟨2, []⟩)⟩]).1 rfl

theorem boundRow_error_kinds (vars : List String) (j : Nat) (low : Bool) (e : BExpr) (er : TErr)
    (h : boundRow vars j low e = .error er) :
    er = .nonAffineBound ∨ er = .cannotDeriveInequality := by
  cases e with
  | affine a => simp [boundRow] at h
  | nonAffine vs => simp [boundRow] at h; simp [h]
  | underivable vs => simp [boundRow] at h; simp [h]

theorem fromLoopRangesGo_error_kinds (vars : List String) :
    ∀ (l : List (String × LoopRangeE)) (er : TErr), fromLoopRangesGo vars l = .error er →
      er = .unsupportedLoopShape ∨ er = .nonAffineBound ∨ er = .cannotDeriveInequality := by
  intro l
  induction l with
  | nil => intro er h; simp [fromLoopRangesGo] at h
  | cons hd tl ih =>
    intro er h
    obtain ⟨v, r⟩ := hd
    by_cases hs : stepOk r.step
    · cases hL : boundRow vars (vars.indexOf (lowerStr v)) true r.start with
      | error e =>
        simp [fromLoopRangesGo, hs, hL] at h
        rcases boundRow_error_kinds _ _ _ _ _ hL with h1 | h1 <;> simp [← h, h1]
      | ok rbL =>
        cases hU : boundRow vars (vars.indexOf (lowerStr v)) false r.stop with
        | error e =>
          simp [fromLoopRangesGo, hs, hL, hU] at h
          rcases boundRow_error_kinds _ _ _ _ _ hU with h1 | h1 <;> simp [← h, h1]
        | ok rbU =>
          cases hgo : fromLoopRangesGo vars tl with
          | error e =>
            simp [fromLoopRangesGo, hs, hL, hU, hgo] at h
            rcases ih e hgo with h1 | h1 | h1 <;> simp [← h, h1]
          | ok rs => simp [fromLoopRangesGo, hs, hL, hU, hgo] at h
    · simp [fromLoopRangesGo, hs] at h
      simp [← h]

theorem from_loop_ranges_error_kinds (loopVars : List String) (ranges : List LoopRangeE)
    (er : TErr) (h : Polyhedron.from_loop_ranges loopVars ranges = .error er) :
    er = .unsupportedLoopShape ∨ er = .nonAffineBound ∨ er = .cannotDeriveInequality := by
  unfold Polyhedron.from_loop_ranges at h
  cases hgo : fromLoopRangesGo (collectVars loopVars ranges) (loopVars.zip ranges) with
  | error e =>
    simp only [hgo] at h
    cases h
    exact fromLoopRangesGo_error_kinds _ _ _ hgo
  | ok rs =>
    obtain ⟨rows, bs⟩ := rs
    simp only [hgo] at h
    cases h

theorem mapME_error_mem {a b : Type} (f : a → Except TErr b) :
    ∀ (l : List a) (e : TErr), mapME f l = .error e → ∃ x ∈ l, f x = .error e := by
  intro l
  induction l with
  | nil => intro e h; simp [mapME] at h
  | cons hd tl ih =>
    intro e h
    cases hf : f hd with
    | error e2 =>
      simp [mapME, hf] at h
      exact ⟨hd, by simp, by rw [hf, h]⟩
    | ok y =>
      cases hm : mapME f tl with
      | error e2 =>
        simp [mapME, hf, hm] at h
        obtain ⟨x, hx, hfx⟩ := ih e2 hm
        exact ⟨x, by simp [hx], by rw [hfx, h]⟩
      | ok ys => simp [mapME, hf, hm] at h

theorem rangeSetCheck_error (ps : List PragmaParams) (e : TErr)
    (h : rangeSetCheck ps = .error e) : e = .conflictingRanges := by
  simp only [rangeSetCheck] at h
  by_cases hc : ((ps.filterMap (fun p => p.range)).dedup.length = 0 ∨
      (ps.filterMap (fun p => p.range)).dedup.length = 1)
  · rw [if_pos hc] at h
    cases h
  · rw [if_neg hc] at h
    cases h
    rfl

theorem collapseCheck_conflict_iff (ps : List PragmaParams) :
    collapseCheck ps = .error .conflictingCollapse ↔
      ps.map (fun p => p.collapse) ≠
        List.replicate (ps.map (fun p => p.collapse)).length
          ((ps.map (fun p => p.collapse)).getD 0 none) := by
  simp only [collapseCheck]
  by_cases hc : ps.map (fun p => p.collapse) =
      List.replicate (ps.map (fun p => p.collapse)).length
        ((ps.map (fun p => p.collapse)).getD 0 none)
  · rw [if_neg (not_not_intro hc)]
    exact iff_of_false (fun h => by cases h) (not_not_intro hc)
  · rw [if_pos hc]
    exact iff_of_true rfl hc

theorem fuseGroupRanges_eq_bind (group : List (PragmaParams × NestInfo)) :
    fuseGroupRanges group =
      Except.bind (collapseCheck (group.map Prod.fst)) (fun depth =>
        Except.bind (rangeSetCheck (group.map Prod.fst)) (fun expl =>
          Except.bind (mapME (fun g => Polyhedron.from_loop_ranges g.2.vars g.2.ranges) group)
            (fun polys =>
              match expl with
              | some r => .ok (r.map toFRange)
              | none => .ok ((List.range depth).map (fusedLevel polys))))) := rfl

theorem fuseGroupRanges_conflict_iff (group : List (PragmaParams × NestInfo)) :
    fuseGroupRanges group = .error .conflictingCollapse ↔
      collapseCheck (group.map Prod.fst) = .error .conflictingCollapse := by
  rw [fuseGroupRanges_eq_bind]
  constructor
  · intro h
    cases hck : collapseCheck (group.map Prod.fst) with
    | error e =>
      rw [hck] at h
      simp only [Except.bind] at h
      cases h
      rfl
    | ok depth =>
      exfalso
      rw [hck] at h
      simp only [Except.bind] at h
      cases hrs : rangeSetCheck (group.map Prod.fst) with
      | error e =>
        rw [hrs] at h
        simp only [Except.bind] at h
        cases h
        cases rangeSetCheck_error _ _ hrs
      | ok expl =>
        rw [hrs] at h
        simp only [Except.bind] at h
        cases hmp : mapME (fun g => Polyhedron.from_loop_ranges g.2.vars g.2.ranges) group with
        | error e =>
          rw [hmp] at h
          simp only [Except.bind] at h
          cases h
          obtain ⟨x, hx, hfx⟩ := mapME_error_mem _ _ _ hmp
          rcases from_loop_ranges_error_kinds _ _ _ hfx with h1 | h1 | h1 <;> cases h1
        | ok polys =>
          rw [hmp] at h
          simp only [Except.bind] at h
          cases expl with
          | none => cases h
          | some rs => cases h
  · intro h
    rw [h]
    simp only [Except.bind]

/-- C3 (amended): loop_fusion raises the collapse-conflict
ConflictingDirectiveError for a group exactly when the raw collapse
parameters of its pragmas are not all identical, where an omitted parameter
is a value of its own, distinct from every explicit value — so a group mixing
an explicit collapse of one with a pragma that omits the parameter raises the
error, although both effective depths would be one; the default depth one
applies only when every pragma of the group omits the parameter. -/
theorem loop_fusion_c3 (group : List (PragmaParams × NestInfo)) :
    (fuseGroupRanges group = .error .conflictingCollapse ↔
      group.map (fun g => g.1.collapse) ≠
        List.replicate group.length ((group.map (fun g => g.1.collapse)).getD 0 none))
    ∧ ((∀ g ∈ group, g.1.collapse = none) →
        collapseCheck (group.map Prod.fst) = .ok 1) := by
  have hmm : (group.map Prod.fst).map (fun p => p.collapse) =
      group.map (fun g => g.1.collapse) := by
    rw [List.map_map]
    rfl
  constructor
  · rw [fuseGroupRanges_conflict_iff, collapseCheck_conflict_iff, hmm, List.length_map]
  · intro hall
    have hcl : group.map (fun g => g.1.collapse) = List.replicate group.length none := by
      rw [List.eq_replicate_iff]
      constructor
      · simp
      · intro b hb
        obtain ⟨g, hg, hgb⟩ := List.mem_map.mp hb
        rw [← hgb]
        exact hall g hg
    have hnone : (group.map (fun g => g.1.collapse)).getD 0 none = none := by
      rw [hcl]
      cases group with
      | nil => rfl
      | cons hd tl => rfl
    simp only [collapseCheck]
    rw [hmm, hnone, List.length_map, hcl]
    simp

/-- C3 counterexample: a group of two loops whose pragmas carry an explicit
collapse of one and no collapse parameter raises the collapse-conflict error,
although the effective collapse depths (with the default of one) agree. -/
theorem loop_fusion_c3_counter :
    fuseGroupRanges
      [(⟨some 1, none⟩, ⟨["i"], [⟨.affine ⟨1, []⟩, .affine ⟨10, []⟩, none⟩]⟩),
       (⟨none, none⟩, ⟨["i"], [⟨.affine ⟨1, []⟩, .affine ⟨10, []⟩, none⟩]⟩)]
      = .error .conflictingCollapse
    ∧ (some 1 : Option Nat).getD 1 = (none : Option Nat).getD 1 :=
  ⟨rfl, rfl⟩

/-- Witness for C3: a group with raw collapse values two and three raises the
collapse conflict, and a group whose pragmas all omit the parameter passes the
check with the default depth one. -/
theorem loop_fusion_c3_witness :
    fuseGroupRanges
      [(⟨some 2, none⟩, ⟨["i"], [⟨.affine ⟨1, []⟩, .affine ⟨10, []⟩, none⟩]⟩),
       (⟨some 3, none⟩, ⟨["i"], [⟨.affine ⟨1, []⟩, .affine ⟨10, []⟩, none⟩]⟩)]
      = .error .conflictingCollapse
    ∧ collapseCheck
        ([(⟨none, none⟩, (⟨["i"], [⟨.affine ⟨1, []⟩, .affine ⟨10, []⟩, none⟩]⟩ : NestInfo))].map
          Prod.fst) = .ok 1 := by
  constructor
  · exact (loop_fusion_c3 _).1.mpr (by decide)
  · exact (loop_fusion_c3 _).2 (by intro g hg; simp at hg; rw [hg])

/-- C4 (amended): when the pragmas of a fusion group state exactly one
distinct explicit range, loop_fusion uses that stated range as-is as the
fused bounds for every collapse level, and the per-level bound merging is
skipped — but the iteration-space Polyhedron of every loop of the group is
still constructed beforehand (line 267 of transform_loop.py runs
unconditionally), so a loop whose own bounds are rejected (unsupported step
or non-affine bound) makes the fusion of the group fail even under an
explicit range.  The equation states both facts at once: the result is the
stated range exactly when every polyhedron construction succeeds, and the
first construction error otherwise. -/
theorem loop_fusion_c4 (group : List (PragmaParams × NestInfo)) (R : List LoopRangeE) (d : Nat)
    (hck : collapseCheck (group.map Prod.fst) = .ok d)
    (hr : ((group.map Prod.fst).filterMap (fun p => p.range)).dedup = [R]) :
    fuseGroupRanges group =
      (mapME (fun g => Polyhedron.from_loop_ranges g.2.vars g.2.ranges) group).map
        (fun _ => R.map toFRange) := by
  rw [fuseGroupRanges_eq_bind, hck]
  simp only [Except.bind]
  have hrs : rangeSetCheck (group.map Prod.fst) = .ok (some R) := by
    simp only [rangeSetCheck, hr]
    simp
  rw [hrs]
  simp only [Except.bind]
  cases hmp : mapME (fun g => Polyhedron.from_loop_ranges g.2.vars g.2.ranges) group with
  | error e => simp [Except.map]
  | ok polys => simp [Except.map]

/-- C4 counterexample: a group of a single loop whose pragma states the
explicit range one to ten but whose own range has step two: exactly one
distinct explicit range is stated, yet loop_fusion fails with the step error
raised by the polyhedron construction instead of fusing with the stated
range, because the polyhedra are built even when an explicit range is
given. -/
theorem loop_fusion_c4_counter :
    (([(PragmaParams.mk none (some [⟨.affine ⟨1, []⟩, .affine ⟨10, []⟩, none⟩]),
        NestInfo.mk ["i"] [⟨.affine ⟨1, []⟩, .affine ⟨5, []⟩, some (.affine ⟨2, []⟩)⟩])].map
          Prod.fst).filterMap (fun p => p.range)).dedup
      = [[⟨.affine ⟨1, []⟩, .affine ⟨10, []⟩, none⟩]]
    ∧ fuseGroupRanges
        [(PragmaParams.mk none (some [⟨.affine ⟨1, []⟩, .affine ⟨10, []⟩, none⟩]),
          NestInfo.mk ["i"] [⟨.affine ⟨1, []⟩, .affine ⟨5, []⟩, some (.affine ⟨2, []⟩)⟩])]
      = .error .unsupportedLoopShape :=
  ⟨rfl, rfl⟩

/-- Witness for C4: a single-loop group with the explicit range one to ten
and a supported loop range one to five fuses to the stated range. -/
theorem loop_fusion_c4_witness :
    fuseGroupRanges
      [(PragmaParams.mk none (some [⟨.affine ⟨1, []⟩, .affine ⟨10, []⟩, none⟩]),
        NestInfo.mk ["i"] [⟨.affine ⟨1, []⟩, .affine ⟨5, []⟩, none⟩])]
      = (mapME (fun g => Polyhedron.from_loop_ranges g.2.vars g.2.ranges)
          [(PragmaParams.mk none (some [⟨.affine ⟨1, []⟩, .affine ⟨10, []⟩, none⟩]),
            NestInfo.mk ["i"] [⟨.affine ⟨1, []⟩, .affine ⟨5, []⟩, none⟩])]).map
        (fun _ => [(⟨.affine ⟨1, []⟩, .affine ⟨10, []⟩, none⟩ : LoopRangeE)].map toFRange) :=
  loop_fusion_c4 _ [⟨.affine ⟨1, []⟩, .affine ⟨10, []⟩, none⟩] 1 rfl rfl

/-- Statement sequence of a loop body with the fission pragmas removed, as the
claim describes it: a bare fission pragma line is dropped, a statement with an
attached fission marker is kept with the marker stripped, everything else is
kept unchanged. -/
def stripFission : List FNode → List FNode
  | [] => []
  | ch :: rest =>
    (match ch with
     | .prag p => if p.fission then [] else [.prag p]
     | .stmt i (some p) => if p.fission then [FNode.stmt i none] else [FNode.stmt i (some p)]
     | .stmt i none => [FNode.stmt i none]) ++ stripFission rest

theorem stripFission_cons_marker (ch : FNode) (rest : List FNode)
    (h : isFissionMarker ch = true) :
    stripFission (ch :: rest) = markerHead ch ++ stripFission rest := by
  cases ch with
  | prag p =>
    have hp : p.fission = true := h
    simp [stripFission, markerHead, hp]
  | stmt i pr =>
    cases pr with
    | some p =>
      have hp : p.fission = true := h
      simp [stripFission, markerHead, hp]
    | none => simp [isFissionMarker] at h

theorem stripFission_cons_plain (ch : FNode) (rest : List FNode)
    (h : isFissionMarker ch = false) :
    stripFission (ch :: rest) = ch :: stripFission rest := by
  cases ch with
  | prag p =>
    have hp : p.fission = false := h
    simp [stripFission, hp]
  | stmt i pr =>
    cases pr with
    | some p =>
      have hp : p.fission = false := h
      simp [stripFission, hp]
    | none => simp [stripFission]

theorem splitBodies_flatten (l : List FNode) :
    ∀ cur : List FNode, (splitBodies cur l).flatten = cur ++ stripFission l := by
  induction l with
  | nil =>
    intro cur
    cases cur with
    | nil => simp [splitBodies, stripFission]
    | cons a t => simp [splitBodies, stripFission]
  | cons ch rest ih =>
    intro cur
    by_cases hm : isFissionMarker ch
    · rw [splitBodies, if_pos hm]
      rw [List.flatten_cons, ih (markerHead ch), stripFission_cons_marker ch rest hm]
    · rw [splitBodies, if_neg hm]
      rw [ih (cur ++ [ch]), stripFission_cons_plain ch rest (by simpa using hm),
        List.append_assoc]
      simp

/-- C5: for a loop containing loop-fission pragmas whose promote lists are
empty, the bodies of the loops generated by loop_fission concatenate, in
order, to the original body with the fission pragmas removed (a bare pragma
line dropped, an attached fission marker stripped while its statement opens
the next segment), and every generated loop carries the original loop
variable and the original bounds. -/
theorem loop_fission_c5 (l : FLoop)
    (hmark : l.body.any isFissionMarker = true)
    (hpromote : ∀ p ∈ loopFissionPrags l, p.promote = []) :
    ((loop_fission_loops l).map FLoop.body).flatten = stripFission l.body
    ∧ ∀ l2 ∈ loop_fission_loops l, l2.var = l.var ∧ l2.bounds = l.bounds := by
  constructor
  · have : (loop_fission_loops l).map FLoop.body = splitBodies [] l.body := by
      rw [loop_fission_loops, List.map_map]
      exact List.map_id _
    rw [this, splitBodies_flatten l.body []]
    simp
  · intro l2 h2
    rw [loop_fission_loops] at h2
    obtain ⟨b, hb, hb2⟩ := List.mem_map.mp h2
    rw [← hb2]
    exact ⟨rfl, rfl⟩

/-- Witness for C5: the loop over tmp with body S1, a bare fission pragma,
then S2 splits into segments S1 and S2, concatenating back to S1 S2, each
generated loop keeping the bounds one to five. -/
theorem loop_fission_c5_witness :
    (((loop_fission_loops
        ⟨"i", ⟨⟨1, []⟩, ⟨5, []⟩, none⟩,
          [FNode.stmt 1 none, FNode.prag ⟨true, []⟩, FNode.stmt 2 none]⟩).map
        FLoop.body).flatten
      = stripFission [FNode.stmt 1 none, FNode.prag ⟨true, []⟩, FNode.stmt 2 none])
    ∧ ∀ l2 ∈ loop_fission_loops
        ⟨"i", ⟨⟨1, []⟩, ⟨5, []⟩, none⟩,
          [FNode.stmt 1 none, FNode.prag ⟨true, []⟩, FNode.stmt 2 none]⟩,
        l2.var = "i" ∧ l2.bounds = ⟨⟨1, []⟩, ⟨5, []⟩, none⟩ :=
  loop_fission_c5 _ rfl (by decide)

theorem find?_map_overwrite_ne (n n2 : String) (sh : List Affine) (h2 : n2 ≠ n) :
    ∀ rest : List (String × List Affine),
      (rest.map (fun p => if p.1 = n then (n, sh) else p)).find? (fun p => p.1 = n2)
        = rest.find? (fun p => p.1 = n2) := by
  intro rest
  induction rest with
  | nil => rfl
  | cons hd tl ih =>
    obtain ⟨a, b⟩ := hd
    by_cases ha : a = n
    · rw [List.map_cons, if_pos (by simpa using ha)]
      rw [List.find?_cons_of_neg _ (by simpa using Ne.symm h2)]
      rw [List.find?_cons_of_neg _ (by simpa using fun hh => (Ne.symm h2) (ha ▸ hh))]
      exact ih
    · rw [List.map_cons, if_neg (by simpa using ha)]
      by_cases hb : a = n2
      · rw [List.find?_cons_of_pos _ (by simpa using hb),
          List.find?_cons_of_pos _ (by simpa using hb)]
      · rw [List.find?_cons_of_neg _ (by simpa using hb),
          List.find?_cons_of_neg _ (by simpa using hb)]
        exact ih

theorem lookupDim_setDim (n n2 : String) (sh : List Affine) (dims : List (String × List Affine)) :
    lookupDim (setDim dims n sh) n2 = if n2 = n then some sh else lookupDim dims n2 := by
  by_cases hany : dims.any (fun p => p.1 = n) = true
  · rw [setDim, if_pos hany]
    by_cases h2 : n2 = n
    · subst h2
      simp only [lookupDim, if_pos rfl]
      induction dims with
      | nil => simp at hany
      | cons hd tl ih =>
        obtain ⟨a, b⟩ := hd
        by_cases ha : a = n2
        · rw [List.map_cons, if_pos (by simpa using ha)]
          rw [List.find?_cons_of_pos _ (by simp)]
          rfl
        · rw [List.map_cons, if_neg (by simpa using ha)]
          rw [List.find?_cons_of_neg _ (by simpa using ha)]
          have htl : tl.any (fun p => p.1 = n2) = true := by
            rcases List.any_eq_true.mp hany with ⟨p, hp, hpn⟩
            rcases List.mem_cons.mp hp with h3 | h3
            · exact absurd (by rw [h3] at hpn; simpa using hpn) ha
            · exact List.any_eq_true.mpr ⟨p, h3, hpn⟩
          exact ih htl
    · simp only [lookupDim, if_neg h2]
      rw [find?_map_overwrite_ne n n2 sh h2]
  · rw [setDim, if_neg (by simpa using hany)]
    simp only [lookupDim, List.find?_append]
    by_cases h2 : n2 = n
    · subst h2
      have : dims.find? (fun p => p.1 = n2) = none := by
        rw [List.find?_eq_none]
        intro p hp
        simp only [decide_eq_true_eq]
        intro hpn
        exact hany (List.any_eq_true.mpr ⟨p, hp, by simpa using hpn⟩)
      rw [this, if_pos rfl]
      simp [List.find?]
    · rw [if_neg h2]
      have : ([(n, sh)] : List (String × List Affine)).find? (fun p => p.1 = n2) = none := by
        rw [List.find?_cons_of_neg _ (by simpa using fun hh : n = n2 => h2 hh.symm)]
        rfl
      rw [this]
      cases dims.find? (fun p => p.1 = n2) <;> rfl

theorem promoteUpdate_other (vs : String → List Affine) (dims : List (String × List Affine))
    (n n2 : String) (len : Affine) (hne : n2 ≠ n) :
    lookupDim (promoteUpdate vs dims n len) n2 = lookupDim dims n2 := by
  unfold promoteUpdate
  cases lookupDim dims n with
  | some shape => rw [lookupDim_setDim, if_neg hne]
  | none => rw [lookupDim_setDim, if_neg hne]

theorem Affine.sub_consts (M c : Int) : Affine.sub ⟨M, []⟩ ⟨c, []⟩ = ⟨M - c, []⟩ := rfl

theorem sLt_consts (M c : Int) : sLt ⟨M, []⟩ ⟨c, []⟩ = decide (M < c) := by
  show (Affine.isConst ⟨M - c, []⟩ && decide ((M - c : Int) < 0)) = decide (M < c)
  rw [show Affine.isConst ⟨M - c, []⟩ = true from rfl, Bool.true_and]
  exact decide_eq_decide.mpr sub_neg

theorem promoteUpdate_self_some (vs : String → List Affine) (dims : List (String × List Affine))
    (n : String) (base : List Affine) (M c : Int)
    (h : lookupDim dims n = some (base ++ [⟨M, []⟩])) :
    lookupDim (promoteUpdate vs dims n ⟨c, []⟩) n = some (base ++ [⟨max M c, []⟩]) := by
  unfold promoteUpdate
  rw [h]
  simp only [List.getLastD_concat, sLt_consts]
  by_cases hlt : M < c
  · rw [if_pos (by simpa using hlt), List.dropLast_concat, lookupDim_setDim, if_pos rfl,
      max_eq_right (le_of_lt hlt)]
  · rw [if_neg (by simpa using hlt), lookupDim_setDim, if_pos rfl,
      max_eq_left (not_lt.mp hlt)]

theorem promoteUpdate_self_none (vs : String → List Affine) (dims : List (String × List Affine))
    (n : String) (len : Affine) (h : lookupDim dims n = none) :
    lookupDim (promoteUpdate vs dims n len) n = some (vs n ++ [len]) := by
  unfold promoteUpdate
  rw [h, lookupDim_setDim, if_pos rfl]

theorem innerFold_not_mem (vs : String → List Affine) (n : String) (len : Affine) :
    ∀ (names : List String) (dims : List (String × List Affine)), n ∉ names →
      lookupDim (names.foldl (fun dims n2 => promoteUpdate vs dims n2 len) dims) n
        = lookupDim dims n := by
  intro names
  induction names with
  | nil => intro dims _; rfl
  | cons m rest ih =>
    intro dims hmem
    rw [List.foldl_cons, ih _ (fun h => hmem (List.mem_cons_of_mem m h)),
      promoteUpdate_other vs dims m n len (fun h => hmem (h ▸ List.mem_cons_self m rest))]

theorem innerFold_lookup (vs : String → List Affine) (n : String) (c : Int) :
    ∀ (names : List String) (dims : List (String × List Affine)) (cur : Option Int),
      lookupDim dims n = cur.map (fun M => vs n ++ [⟨M, []⟩]) →
      lookupDim (names.foldl (fun dims n2 => promoteUpdate vs dims n2 ⟨c, []⟩) dims) n
        = (if n ∈ names then
            some (match cur with
              | some M => max M c
              | none => c)
          else cur).map (fun M => vs n ++ [⟨M, []⟩]) := by
  intro names
  induction names with
  | nil => intro dims cur h; simpa using h
  | cons m rest ih =>
    intro dims cur h
    rw [List.foldl_cons]
    by_cases hm : m = n
    · subst hm
      cases cur with
      | some M =>
        have h2 := promoteUpdate_self_some vs dims m (vs m) M c (by simpa using h)
        have h3 := ih (promoteUpdate vs dims m ⟨c, []⟩) (some (max M c)) (by simpa using h2)
        rw [h3]
        by_cases hr : m ∈ rest
        · simp only [hr, if_true, List.mem_cons, true_or, if_pos]
          rw [max_assoc, max_self]
        · simp [hr]
      | none =>
        have h2 := promoteUpdate_self_none vs dims m ⟨c, []⟩ (by simpa using h)
        have h3 := ih (promoteUpdate vs dims m ⟨c, []⟩) (some c) (by simpa using h2)
        rw [h3]
        by_cases hr : m ∈ rest
        · simp only [hr, if_true, List.mem_cons, true_or, if_pos]
          rw [max_self]
        · simp [hr]
    · have hnm : ¬ n = m := fun hh => hm hh.symm
      have h2 : lookupDim (promoteUpdate vs dims m ⟨c, []⟩) n = lookupDim dims n :=
        promoteUpdate_other vs dims m n ⟨c, []⟩ hnm
      rw [ih _ cur (h2.trans h)]
      by_cases hr : n ∈ rest
      · simp [hr, List.mem_cons]
      · simp [hr, List.mem_cons, hnm]

theorem fissionDims_lookup (vs : String → List Affine) (n : String) :
    ∀ (loops : List FLoop) (dims : List (String × List Affine)) (cur : Option Int),
      (∀ l ∈ loops, n ∈ loopPromoteNames l → (loop_length l).coeffs = []) →
      lookupDim dims n = cur.map (fun M => vs n ++ [⟨M, []⟩]) →
      lookupDim (loops.foldl (fun dims l => (loopPromoteNames l).foldl
          (fun dims n2 => promoteUpdate vs dims n2 (loop_length l)) dims) dims) n
        = (loops.foldl (fun cur l => if n ∈ loopPromoteNames l then
            some (match cur with
              | some M => max M (loop_length l).const
              | none => (loop_length l).const)
            else cur) cur).map (fun M => vs n ++ [⟨M, []⟩]) := by
  intro loops
  induction loops with
  | nil => intro dims cur _ h; simpa using h
  | cons l rest ih =>
    intro dims cur hconst h
    rw [List.foldl_cons, List.foldl_cons]
    by_cases hmem : n ∈ loopPromoteNames l
    · have hc : (loop_length l).coeffs = [] := hconst l (List.mem_cons_self l rest) hmem
      have hlen : loop_length l = ⟨(loop_length l).const, []⟩ := by
        cases hl : loop_length l
        rw [hl] at hc
        simp only at hc
        rw [hc]
      rw [hlen, if_pos hmem]
      have h2 := innerFold_lookup vs n (loop_length l).const (loopPromoteNames l) dims cur h
      rw [if_pos hmem] at h2
      exact ih _ _ (fun l2 hl2 => hconst l2 (List.mem_cons_of_mem l hl2)) h2
    · rw [if_neg hmem]
      have h2 := innerFold_not_mem vs n (loop_length l) (loopPromoteNames l) dims hmem
      exact ih _ _ (fun l2 hl2 => hconst l2 (List.mem_cons_of_mem l hl2)) (h2.trans h)

theorem foldStepO_some (n : String) :
    ∀ (loops : List FLoop) (M : Int),
      loops.foldl (fun cur l => if n ∈ loopPromoteNames l then
          some (match cur with
            | some M2 => max M2 (loop_length l).const
            | none => (loop_length l).const)
          else cur) (some M)
        = some (((loops.filterMap (fun l => if n ∈ loopPromoteNames l then
            some (loop_length l) else none)).map Affine.const).foldl max M) := by
  intro loops
  induction loops with
  | nil => intro M; rfl
  | cons l rest ih =>
    intro M
    by_cases hmem : n ∈ loopPromoteNames l
    · simp only [List.foldl_cons, List.filterMap_cons, if_pos hmem]
      rw [ih (max M (loop_length l).const)]
      rfl
    · simp only [List.foldl_cons, List.filterMap_cons, if_neg hmem]
      exact ih M

theorem foldStepO_none (n : String) :
    ∀ loops : List FLoop,
      loops.foldl (fun cur l => if n ∈ loopPromoteNames l then
          some (match cur with
            | some M2 => max M2 (loop_length l).const
            | none => (loop_length l).const)
          else cur) none
        = ((loops.filterMap (fun l => if n ∈ loopPromoteNames l then
            some (loop_length l) else none)).map Affine.const).max? := by
  intro loops
  induction loops with
  | nil => rfl
  | cons l rest ih =>
    by_cases hmem : n ∈ loopPromoteNames l
    · simp only [List.foldl_cons, List.filterMap_cons, if_pos hmem]
      rw [foldStepO_some n rest (loop_length l).const]
      rfl
    · simp only [List.foldl_cons, List.filterMap_cons, if_neg hmem]
      exact ih

/-- C6: after one loop_fission pass, a variable named in a promote list of
some annotated loop ends with its declared shape extended by exactly one
trailing dimension, and (for constant, comparable trip counts, the case the
black-box comparison can decide) the size of that dimension is the maximum of
the simplified trip counts stop minus start plus one over all loops of the
pass that promote the variable — in particular a later promoting loop with a
smaller trip count never shrinks the recorded size. -/
theorem loop_fission_c6 (vs : String → List Affine) (loops : List FLoop) (n : String) (M : Int)
    (hconst : ∀ l ∈ loops, n ∈ loopPromoteNames l → (loop_length l).coeffs = [])
    (hmax : ((loops.filterMap (fun l => if n ∈ loopPromoteNames l then
        some (loop_length l) else none)).map Affine.const).max? = some M) :
    shapeAfterFission vs loops n = vs n ++ [⟨M, []⟩] := by
  have h1 := fissionDims_lookup vs n loops [] none hconst rfl
  rw [foldStepO_none n loops, hmax] at h1
  unfold shapeAfterFission
  unfold fissionPassDims
  rw [h1]
  rfl

/-- Witness for C6: two loops promoting tmp with trip counts five and three
leave tmp with one trailing dimension of size five (the second, smaller loop
does not shrink it). -/
theorem loop_fission_c6_witness :
    shapeAfterFission (fun _ => [])
      [⟨"i", ⟨⟨1, []⟩, ⟨5, []⟩, none⟩, [FNode.prag ⟨true, ["tmp"]⟩, FNode.stmt 1 none]⟩,
       ⟨"j", ⟨⟨1, []⟩, ⟨3, []⟩, none⟩, [FNode.prag ⟨true, ["tmp"]⟩, FNode.stmt 2 none]⟩]
      "tmp" = [] ++ [⟨5, []⟩] :=
  loop_fission_c6 (fun _ => []) _ "tmp" 5 (by decide) (by rfl)

theorem find?_dictmap_ne (k j : String) (v : List Nat) (h2 : j ≠ k) :
    ∀ rest : List (String × List Nat),
      (rest.map (fun p => if p.1 = k then (k, v) else p)).find? (fun p => p.1 = j)
        = rest.find? (fun p => p.1 = j) := by
  intro rest
  induction rest with
  | nil => rfl
  | cons hd tl ih =>
    obtain ⟨a, b⟩ := hd
    by_cases ha : a = k
    · rw [List.map_cons, if_pos (by simpa using ha)]
      rw [List.find?_cons_of_neg _ (by simpa using Ne.symm h2)]
      rw [List.find?_cons_of_neg _ (by simpa using fun hh => (Ne.symm h2) (ha ▸ hh))]
      exact ih
    · rw [List.map_cons, if_neg (by simpa using ha)]
      by_cases hb : a = j
      · rw [List.find?_cons_of_pos _ (by simpa using hb),
          List.find?_cons_of_pos _ (by simpa using hb)]
      · rw [List.find?_cons_of_neg _ (by simpa using hb),
          List.find?_cons_of_neg _ (by simpa using hb)]
        exact ih

theorem dictGet_dictInsert (k j : String) (v : List Nat) (m : List (String × List Nat)) :
    dictGet (dictInsert m k v) j = if j = k then some v else dictGet m j := by
  by_cases hany : m.any (fun p => p.1 = k) = true
  · rw [dictInsert, if_pos hany]
    by_cases h2 : j = k
    · subst h2
      simp only [dictGet, if_pos rfl]
      induction m with
      | nil => simp at hany
      | cons hd tl ih =>
        obtain ⟨a, b⟩ := hd
        by_cases ha : a = j
        · rw [List.map_cons, if_pos (by simpa using ha)]
          rw [List.find?_cons_of_pos _ (by simp)]
          rfl
        · rw [List.map_cons, if_neg (by simpa using ha)]
          rw [List.find?_cons_of_neg _ (by simpa using ha)]
          have htl : tl.any (fun p => p.1 = j) = true := by
            rcases List.any_eq_true.mp hany with ⟨p, hp, hpn⟩
            rcases List.mem_cons.mp hp with h3 | h3
            · exact absurd (by rw [h3] at hpn; simpa using hpn) ha
            · exact List.any_eq_true.mpr ⟨p, h3, hpn⟩
          exact ih htl
    · simp only [dictGet, if_neg h2]
      rw [find?_dictmap_ne k j v h2]
  · rw [dictInsert, if_neg (by simpa using hany)]
    simp only [dictGet, List.find?_append]
    by_cases h2 : j = k
    · subst h2
      have : m.find? (fun p => p.1 = j) = none := by
        rw [List.find?_eq_none]
        intro p hp
        simp only [decide_eq_true_eq]
        intro hpn
        exact hany (List.any_eq_true.mpr ⟨p, hp, by simpa using hpn⟩)
      rw [this, if_pos rfl]
      simp [List.find?]
    · rw [if_neg h2]
      have : ([(k, v)] : List (String × List Nat)).find? (fun p => p.1 = j) = none := by
        rw [List.find?_cons_of_neg _ (by simpa using fun hh : k = j => h2 hh.symm)]
        rfl
      rw [this]
      cases m.find? (fun p => p.1 = j) <;> rfl

/-- Shape recorded by one allocation for one of its variables: the data source
shape when the allocation has one, the explicit dimensions of the variable
otherwise. -/
def allocShapeOf (a : Alloc) (v : AllocVar) : List Nat :=
  match a.dataSource with
  | some s => s
  | none => v.dims

/-- Entries contributed to the allocation map, in body order: one entry per
Array variable of every allocation, keyed by the lowercased name. -/
def allocEntries (allocs : List Alloc) : List (String × List Nat) :=
  allocs.flatMap (fun a => a.vars.filterMap
    (fun v => if v.isArray then some (lowerStr v.name, allocShapeOf a v) else none))

/-- Shape of the last allocation in body order naming a variable, the claim
side of the last-wins rule. -/
def lastAllocShape (allocs : List Alloc) (k : String) : Option (List Nat) :=
  ((allocEntries allocs).reverse.find? (fun e => e.1 = k)).map (fun e => e.2)

theorem allocVars_fold (a : Alloc) :
    ∀ (avs : List AllocVar) (m : List (String × List Nat)),
      avs.foldl (fun m v => if v.isArray then
          dictInsert m (lowerStr v.name) (match a.dataSource with
            | some s => s
            | none => v.dims) else m) m
        = (avs.filterMap (fun v => if v.isArray then
            some (lowerStr v.name, allocShapeOf a v) else none)).foldl
            (fun m e => dictInsert m e.1 e.2) m := by
  intro avs
  induction avs with
  | nil => intro m; rfl
  | cons v rest ih =>
    intro m
    by_cases hv : v.isArray
    · simp only [List.foldl_cons, List.filterMap_cons, if_pos hv]
      exact ih _
    · simp only [List.foldl_cons, List.filterMap_cons, if_neg hv]
      exact ih m

theorem alloc_map_entries (allocs : List Alloc) :
    alloc_map allocs = (allocEntries allocs).foldl (fun m e => dictInsert m e.1 e.2) [] := by
  suffices h : ∀ (al : List Alloc) (m : List (String × List Nat)),
      al.foldl (fun m a => a.vars.foldl
        (fun m v => if v.isArray then
          dictInsert m (lowerStr v.name) (match a.dataSource with
            | some s => s
            | none => v.dims) else m) m) m
      = (allocEntries al).foldl (fun m e => dictInsert m e.1 e.2) m by
    exact h allocs []
  intro al
  induction al with
  | nil => intro m; rfl
  | cons a rest ih =>
    intro m
    have hsplit : allocEntries (a :: rest)
        = (a.vars.filterMap (fun v => if v.isArray then
            some (lowerStr v.name, allocShapeOf a v) else none)) ++ allocEntries rest := by
      rw [allocEntries, List.flatMap_cons]
      rfl
    rw [List.foldl_cons, hsplit, List.foldl_append, ih, allocVars_fold a a.vars m]

theorem dictGet_foldInsert (k : String) :
    ∀ (entries : List (String × List Nat)) (m : List (String × List Nat)),
      dictGet (entries.foldl (fun m e => dictInsert m e.1 e.2) m) k
        = match entries.reverse.find? (fun e => e.1 = k) with
          | some e => some e.2
          | none => dictGet m k := by
  intro entries
  induction entries with
  | nil => intro m; rfl
  | cons e rest ih =>
    intro m
    rw [List.foldl_cons, ih (dictInsert m e.1 e.2), List.reverse_cons, List.find?_append]
    cases hrest : rest.reverse.find? (fun e => e.1 = k) with
    | some e2 => rfl
    | none =>
      simp only [Option.none_or]
      by_cases he : e.1 = k
      · rw [List.find?_cons_of_pos _ (by simpa using he)]
        rw [dictGet_dictInsert, if_pos he.symm]
      · rw [List.find?_cons_of_neg _ (by simpa using he)]
        rw [dictGet_dictInsert, if_neg (fun hh => he hh.symm)]
        rfl

theorem alloc_map_get (allocs : List Alloc) (k : String) :
    dictGet (alloc_map allocs) k = lastAllocShape allocs k := by
  rw [alloc_map_entries, dictGet_foldInsert]
  unfold lastAllocShape
  cases (allocEntries allocs).reverse.find? (fun e => e.1 = k) <;> rfl

/-- Attachment of inferred shapes to one occurrence, as the claim states it:
when the lowercased name matches an array named in some allocation of the
body, the occurrence receives the shape of the last such allocation in body
order (the data source shape when that allocation has a data source, its
explicit dimensions otherwise); an occurrence whose name is never allocated
is left unchanged. -/
def c7attach (allocs : List Alloc) (o : Occ) : Occ :=
  match lastAllocShape allocs (lowerStr o.name) with
  | some s => ⟨o.name, some s⟩
  | none => o

/-- C7: Subroutine._infer_allocatable_shapes attaches, to every variable
occurrence of spec and body, the shape recorded by the last allocation of the
body naming it (data source shape if given, explicit dimensions otherwise),
matching names case-insensitively, and leaves every occurrence of a never
allocated name unchanged. -/
theorem infer_allocatable_shapes_c7 (spec body : List Occ) (allocs : List Alloc) :
    infer_allocatable_shapes spec body allocs
      = (spec.map (c7attach allocs), body.map (c7attach allocs)) := by
  have hpt : ∀ occs : List Occ, attachShapes (alloc_map allocs) occs = occs.map (c7attach allocs) := by
    intro occs
    unfold attachShapes
    apply List.map_congr_left
    intro o _
    rw [alloc_map_get]
    rfl
  simp only [infer_allocatable_shapes]
  rw [hpt spec, hpt body]

/-- Declared variables of a spec section, flattened in order. -/
def specVars (spec : List SpecNode) : List SVar :=
  spec.flatMap (fun n => match n with
    | .decl d => d.vars
    | .other _ => [])

theorem specVars_append (s1 s2 : List SpecNode) :
    specVars (s1 ++ s2) = specVars s1 ++ specVars s2 := by
  unfold specVars
  rw [List.flatMap_append]

theorem appendArgs_mono (declared : List SVar) :
    ∀ (args : List SVar) (spec spec2 : List SpecNode),
      appendArgs declared spec args = .ok spec2 → ∃ tail, spec2 = spec ++ tail := by
  intro args
  induction args with
  | nil =>
    intro spec spec2 h
    cases h
    exact ⟨[], by simp⟩
  | cons a rest ih =>
    intro spec spec2 h
    rw [appendArgs] at h
    cases ha : appendArg declared spec a with
    | error e => rw [ha] at h; cases h
    | ok spec1 =>
      rw [ha] at h
      obtain ⟨tail, htail⟩ := ih spec1 spec2 h
      rw [appendArg] at ha
      by_cases hd : a ∈ declared
      · rw [if_pos hd] at ha
        cases ha
        exact ⟨tail, htail⟩
      · rw [if_neg hd] at ha
        cases hi : a.intent with
        | none => rw [hi] at ha; cases ha
        | some i =>
          rw [hi] at ha
          cases ha
          exact ⟨SpecNode.decl ⟨[a]⟩ :: tail, by rw [htail, List.append_assoc]; rfl⟩

theorem appendArgs_mem (declared : List SVar) :
    ∀ (args : List SVar) (spec spec2 : List SpecNode),
      appendArgs declared spec args = .ok spec2 →
      (∀ d ∈ declared, d ∈ specVars spec) →
      ∀ a ∈ args, a ∈ specVars spec2 := by
  intro args
  induction args with
  | nil => intro spec spec2 _ _ a ha; cases ha
  | cons a rest ih =>
    intro spec spec2 h hsub b hb
    rw [appendArgs] at h
    cases ha : appendArg declared spec a with
    | error e => rw [ha] at h; cases h
    | ok spec1 =>
      rw [ha] at h
      have hmono : ∃ tail, spec2 = spec1 ++ tail := appendArgs_mono declared rest spec1 spec2 h
      rw [appendArg] at ha
      by_cases hd : a ∈ declared
      · rw [if_pos hd] at ha
        cases ha
        rcases List.mem_cons.mp hb with hba | hbr
        · obtain ⟨tail, htail⟩ := hmono
          rw [htail, specVars_append]
          exact List.mem_append_left _ (hsub b (by rw [hba]; exact hd))
        · exact ih spec spec2 h hsub b hbr
      · rw [if_neg hd] at ha
        cases hi : a.intent with
        | none => rw [hi] at ha; cases ha
        | some i =>
          rw [hi] at ha
          cases ha
          have hsub1 : ∀ d ∈ declared, d ∈ specVars (spec ++ [SpecNode.decl ⟨[a]⟩]) := by
            intro d hdm
            rw [specVars_append]
            exact List.mem_append_left _ (hsub d hdm)
          rcases List.mem_cons.mp hb with hba | hbr
          · obtain ⟨tail, htail⟩ := hmono
            rw [htail, specVars_append, specVars_append]
            apply List.mem_append_left
            apply List.mem_append_right
            rw [hba]
            simp [specVars]
          · exact ih (spec ++ [SpecNode.decl ⟨[a]⟩]) spec2 h hsub1 b hbr

theorem setVariables_vars_sub (r : Sub) (vs : List SVar) :
    ∀ v ∈ subVariables (setVariables r vs), v ∈ vs := by
  intro v hv
  unfold setVariables at hv
  unfold subVariables at hv
  obtain ⟨n, hn, hvn⟩ := List.mem_flatMap.mp hv
  obtain ⟨n1, _, hf⟩ := List.mem_filterMap.mp hn
  cases n1 with
  | decl d =>
    by_cases hlen : (d.vars.filter (fun v => v ∈ vs)).length > 0
    · simp only [if_pos hlen] at hf
      cases hf
      have := List.mem_filter.mp hvn
      simpa using this.2
    · simp only [if_neg hlen] at hf
      cases hf
  | other k =>
    simp only at hf
    cases hf
    cases hvn

theorem setVariables_vars_mem (r : Sub) (vs : List SVar) :
    ∀ v ∈ vs, v ∈ subVariables (setVariables r vs) := by
  intro v hv
  have key : ∀ (spec1 : List SpecNode) (d : Decl), SpecNode.decl d ∈ spec1 → v ∈ d.vars →
      v ∈ subVariables ⟨spec1.filterMap (fun n => match n with
        | .decl d =>
          let nv := d.vars.filter (fun v => v ∈ vs)
          if nv.length > 0 then some (SpecNode.decl ⟨nv⟩) else none
        | .other k => some (.other k)), r.dummies.filter
          (fun a => lowerStr a ∈ vs.map (fun v => lowerStr v.name))⟩ := by
    intro spec1 d hmem hvd
    have hvf : v ∈ d.vars.filter (fun v => v ∈ vs) :=
      List.mem_filter.mpr ⟨hvd, by simpa using hv⟩
    have hlen : (d.vars.filter (fun v => v ∈ vs)).length > 0 :=
      List.length_pos.mpr (List.ne_nil_of_mem hvf)
    unfold subVariables
    apply List.mem_flatMap.mpr
    refine ⟨SpecNode.decl ⟨d.vars.filter (fun v => v ∈ vs)⟩, ?_, by simpa using hvf⟩
    apply List.mem_filterMap.mpr
    exact ⟨SpecNode.decl d, hmem, by simp only [if_pos hlen]⟩
  by_cases hd : v ∈ subVariables r
  · unfold subVariables at hd
    obtain ⟨n, hn, hvn⟩ := List.mem_flatMap.mp hd
    cases n with
    | decl d =>
      exact key _ d (List.mem_append_left _ hn) hvn
    | other k => cases hvn
  · have hfil : v ∈ vs.filter (fun v2 => v2 ∉ subVariables r) :=
      List.mem_filter.mpr ⟨hv, by simpa using hd⟩
    have hdecl : SpecNode.decl ⟨[v]⟩ ∈ r.spec ++ (vs.filter
        (fun v2 => v2 ∉ subVariables r)).map (fun v2 => SpecNode.decl ⟨[v2]⟩) := by
      apply List.mem_append_right
      exact List.mem_map.mpr ⟨v, hfil, rfl⟩
    exact key _ ⟨[v]⟩ hdecl (by simp)

/-- C9: assigning to Subroutine.arguments never deletes a declaration (the
spec only grows at the end), while assigning to Subroutine.variables removes
the declaration entry of every omitted variable and drops every dummy whose
lowercased name no longer appears; after either setter every dummy name is
among the lowercased declared variable names (the subsequence invariant of
the specification read as membership, since the same sentence allows
reordering the arguments independently of declaration order). -/
theorem subroutine_setters_c9 :
    (∀ (r : Sub) (args : List SVar) (r2 : Sub), setArguments r args = .ok r2 →
      ∃ tail, r2.spec = r.spec ++ tail)
    ∧ (∀ (r : Sub) (vs : List SVar) (v : SVar), v ∈ subVariables r → v ∉ vs →
        v ∉ subVariables (setVariables r vs))
    ∧ (∀ (r : Sub) (vs : List SVar), (setVariables r vs).dummies
        = r.dummies.filter (fun a => lowerStr a ∈ vs.map (fun v => lowerStr v.name)))
    ∧ (∀ (r : Sub) (vs : List SVar), ∀ d ∈ (setVariables r vs).dummies,
        lowerStr d ∈ (subVariables (setVariables r vs)).map (fun v => lowerStr v.name))
    ∧ (∀ (r : Sub) (args : List SVar) (r2 : Sub), setArguments r args = .ok r2 →
        ∀ d ∈ r2.dummies, d ∈ (subVariables r2).map (fun v => lowerStr v.name)) := by
  have hargsdecl : ∀ (r : Sub) (args : List SVar) (r2 : Sub), setArguments r args = .ok r2 →
      ∀ a ∈ args, a ∈ subVariables r2 := by
    intro r args r2 h a ha
    simp only [setArguments] at h
    cases hap : appendArgs (subVariables r) r.spec args with
    | error e => rw [hap] at h; cases h
    | ok spec2 =>
      rw [hap] at h
      cases h
      exact appendArgs_mem (subVariables r) args r.spec spec2 hap (fun d hd => hd) a ha
  refine ⟨?_, ?_, ?_, ?_, ?_⟩
  · intro r args r2 h
    simp only [setArguments] at h
    cases hap : appendArgs (subVariables r) r.spec args with
    | error e => rw [hap] at h; cases h
    | ok spec2 =>
      rw [hap] at h
      cases h
      exact appendArgs_mono _ args r.spec spec2 hap
  · intro r vs v _ hnotin hmem
    exact hnotin (setVariables_vars_sub r vs v hmem)
  · intro r vs
    rfl
  · intro r vs d hd
    have hd2 : lowerStr d ∈ vs.map (fun v => lowerStr v.name) := by
      have : d ∈ r.dummies.filter (fun a => lowerStr a ∈ vs.map (fun v => lowerStr v.name)) := hd
      simpa using (List.mem_filter.mp this).2
    obtain ⟨v, hv, hvd⟩ := List.mem_map.mp hd2
    exact List.mem_map.mpr ⟨v, setVariables_vars_mem r vs v hv, hvd⟩
  · intro r args r2 h d hd
    have hdum : r2.dummies = args.map (fun a => lowerStr a.name) := by
      simp only [setArguments] at h
      cases hap : appendArgs (subVariables r) r.spec args with
      | error e => rw [hap] at h; cases h
      | ok spec2 => rw [hap] at h; cases h; rfl
    rw [hdum] at hd
    obtain ⟨a, ha, had⟩ := List.mem_map.mp hd
    exact List.mem_map.mpr ⟨a, hargsdecl r args r2 h a ha, had⟩

/-- Witness for C9: a subroutine declaring x and y, with dummy x; assigning
arguments x and y appends nothing new but keeps both declarations, assigning
the filtered variable list consisting of x alone removes the declaration of y
and keeps the dummy x, whose name remains declared. -/
theorem subroutine_setters_c9_witness :
    (∃ tail, (Sub.mk [SpecNode.decl ⟨[⟨"x", some 0⟩, ⟨"y", some 0⟩]⟩] ["x", "y"]).spec
      = (Sub.mk [SpecNode.decl ⟨[⟨"x", some 0⟩, ⟨"y", some 0⟩]⟩] ["x"]).spec ++ tail)
    ∧ (⟨"y", some 0⟩ : SVar) ∉ subVariables (setVariables
        (Sub.mk [SpecNode.decl ⟨[⟨"x", some 0⟩, ⟨"y", some 0⟩]⟩] ["x"]) [⟨"x", some 0⟩])
    ∧ ∀ d ∈ (setVariables (Sub.mk [SpecNode.decl ⟨[⟨"x", some 0⟩, ⟨"y", some 0⟩]⟩] ["x"])
        [⟨"x", some 0⟩]).dummies,
        lowerStr d ∈ (subVariables (setVariables
          (Sub.mk [SpecNode.decl ⟨[⟨"x", some 0⟩, ⟨"y", some 0⟩]⟩] ["x"])
          [⟨"x", some 0⟩])).map (fun v => lowerStr v.name) := by
  refine ⟨?_, ?_, ?_⟩
  · exact subroutine_setters_c9.1
      (Sub.mk [SpecNode.decl ⟨[⟨"x", some 0⟩, ⟨"y", some 0⟩]⟩] ["x"])
      [⟨"x", some 0⟩, ⟨"y", some 0⟩] _ rfl
  · exact subroutine_setters_c9.2.1
      (Sub.mk [SpecNode.decl ⟨[⟨"x", some 0⟩, ⟨"y", some 0⟩]⟩] ["x"])
      [⟨"x", some 0⟩] ⟨"y", some 0⟩ (by decide) (by decide)
  · exact subroutine_setters_c9.2.2.2.1
      (Sub.mk [SpecNode.decl ⟨[⟨"x", some 0⟩, ⟨"y", some 0⟩]⟩] ["x"]) [⟨"x", some 0⟩]

theorem fusionGroups_eq_nil (ls : List BodyNode) (h : ∀ l ∈ ls, fusionTag l = none) :
    ∀ gs, ls.foldl
      (fun gs n => match n with
        | BodyNode.loop (some (.fusion g ps)) v b bd => addGroup gs g (ps, v, b, bd)
        | _ => gs) gs = gs := by
  induction ls with
  | nil => intro gs; rfl
  | cons n rest ih =>
    intro gs
    rw [List.foldl_cons]
    have hn := h n (List.mem_cons_self n rest)
    have hrest := fun l hl => h l (List.mem_cons_of_mem n hl)
    cases n with
    | loop p v b bd =>
      cases p with
      | none => exact ih hrest gs
      | some pk =>
        cases pk with
        | fusion g ps => exact absurd hn (by simp [fusionTag])
        | other k => exact ih hrest gs
    | stmt i us => exact ih hrest gs
    | comment t => exact ih hrest gs
    | cond cs bd => exact ih hrest gs

/-- C10: when no loop anywhere in the body carries a loop-fusion pragma,
loop_fusion returns the routine unchanged: no fusion group is formed, the
early return fires before any transformation, and spec and body are exactly
the input ones. -/
theorem loop_fusion_c10 (r : Routine)
    (h : ∀ l ∈ findLoopsList r.body, fusionTag l = none) :
    loop_fusion r = .ok r := by
  have hg : fusionGroups r.body = [] := fusionGroups_eq_nil (findLoopsList r.body) h []
  rw [loop_fusion]
  rw [show fusionGroups r.body = [] from hg]
  rfl

/-- Witness for C10: a body of one plain (unannotated) loop containing a
statement, preceded by a comment, passes through loop_fusion untouched. -/
theorem loop_fusion_c10_witness :
    loop_fusion ⟨7, [BodyNode.comment "c",
      BodyNode.loop none "i" ⟨.expr (.affine ⟨1, []⟩), .expr (.affine ⟨10, []⟩), none⟩
        [BodyNode.stmt 1 ["a"]]]⟩
      = .ok ⟨7, [BodyNode.comment "c",
        BodyNode.loop none "i" ⟨.expr (.affine ⟨1, []⟩), .expr (.affine ⟨10, []⟩), none⟩
          [BodyNode.stmt 1 ["a"]]]⟩ := by
  apply loop_fusion_c10
  intro l hl
  have : findLoopsList [BodyNode.comment "c",
      BodyNode.loop none "i" ⟨.expr (.affine ⟨1, []⟩), .expr (.affine ⟨10, []⟩), none⟩
        [BodyNode.stmt 1 ["a"]]]
      = [BodyNode.loop none "i" ⟨.expr (.affine ⟨1, []⟩), .expr (.affine ⟨10, []⟩), none⟩
          [BodyNode.stmt 1 ["a"]]] := rfl
  rw [this] at hl
  rw [List.mem_singleton.mp hl]
  rfl

theorem int_ediv_negone (x : Int) : x / (-1) = -x := by
  rw [Int.ediv_neg, Int.ediv_one]

theorem foldl_if_filterMap {c : Nat → Prop} [DecidablePred c] (g : Nat → Affine) :
    ∀ (l : List Nat) (acc : List Affine),
      l.foldl (fun acc i => if c i then acc ++ [g i] else acc) acc
        = acc ++ l.filterMap (fun i => if c i then some (g i) else none) := by
  intro l
  induction l with
  | nil => intro acc; simp
  | cons i rest ih =>
    intro acc
    rw [List.foldl_cons, List.filterMap_cons]
    by_cases hci : c i
    · rw [if_pos hci, if_pos hci, ih (acc ++ [g i]), List.append_assoc]
      rfl
    · rw [if_neg hci, if_neg hci, ih acc]

theorem c8_single_matrix (a p b q : Int) (hp : p ≠ 0) (hq : q ≠ 0) :
    Polyhedron.from_loop_ranges ["i"]
      [⟨.affine ⟨a, [("n", p)]⟩, .affine ⟨b, [("m", q)]⟩, none⟩]
      = .ok ⟨[[-1, 0, p], [1, -q, 0]], [-a, b], ["i", "m", "n"]⟩ := by
  have hv : collectVars ["i"] [⟨.affine ⟨a, [("n", p)]⟩, .affine ⟨b, [("m", q)]⟩, none⟩]
      = ["i", "m", "n"] := rfl
  have hL : boundRow ["i", "m", "n"] 0 true (.affine ⟨a, [("n", p)]⟩) = .ok ([-1, 0, p], -a) := by
    simp [boundRow, Affine.norm, normCoeffs, addTo, hp]
    rfl
  have hU : boundRow ["i", "m", "n"] 0 false (.affine ⟨b, [("m", q)]⟩) = .ok ([1, -q, 0], b) := by
    simp [boundRow, Affine.norm, normCoeffs, addTo, hq]
    rfl
  rw [Polyhedron.from_loop_ranges, hv]
  rw [show (["i"].zip [(⟨.affine ⟨a, [("n", p)]⟩, .affine ⟨b, [("m", q)]⟩, none⟩ : LoopRangeE)])
    = [("i", (⟨.affine ⟨a, [("n", p)]⟩, .affine ⟨b, [("m", q)]⟩, none⟩ : LoopRangeE))] from rfl]
  rw [fromLoopRangesGo]
  simp only [stepOk, if_true]
  rw [show List.indexOf (lowerStr "i") ["i", "m", "n"] = 0 from rfl]
  rw [hL, hU, fromLoopRangesGo]

theorem c8_const_matrix (a b : Int) :
    Polyhedron.from_loop_ranges ["i"] [⟨.affine ⟨a, []⟩, .affine ⟨b, []⟩, none⟩]
      = .ok ⟨[[-1], [1]], [-a, b], ["i"]⟩ := by
  have hL : boundRow ["i"] 0 true (.affine ⟨a, []⟩) = .ok ([-1], -a) := by
    simp [boundRow, Affine.norm, normCoeffs]
  have hU : boundRow ["i"] 0 false (.affine ⟨b, []⟩) = .ok ([1], b) := by
    simp [boundRow, Affine.norm, normCoeffs]
  rw [Polyhedron.from_loop_ranges]
  rw [show collectVars ["i"] [(⟨.affine ⟨a, []⟩, .affine ⟨b, []⟩, none⟩ : LoopRangeE)]
    = ["i"] from rfl]
  rw [show (["i"].zip [(⟨.affine ⟨a, []⟩, .affine ⟨b, []⟩, none⟩ : LoopRangeE)])
    = [("i", (⟨.affine ⟨a, []⟩, .affine ⟨b, []⟩, none⟩ : LoopRangeE))] from rfl]
  rw [fromLoopRangesGo]
  simp only [stepOk, if_true]
  rw [show List.indexOf (lowerStr "i") ["i"] = 0 from rfl]
  rw [hL, hU, fromLoopRangesGo]

/-- C8: the bound queries of a polyhedron return one solved, simplified
expression per qualifying row in row order — lower_bounds for the rows with a
negative entry in the queried column, upper_bounds symmetrically for the
positive ones — and composing construction and query on a single loop yields
exactly the simplified loop bounds: both for affine symbolic bounds a plus
p times n to b plus q times m (with nonzero coefficients) and for constant
bounds a to b, lower_bounds of level zero is the singleton start and
upper_bounds the singleton stop. -/
theorem polyhedron_bounds_c8 :
    (∀ (P : Polyhedron) (j : Nat),
      P.lower_bounds j = (List.range P.A.length).filterMap
          (fun i => if (P.A.getD i []).getD j 0 < 0 then some (solveRow P j i) else none)
      ∧ P.upper_bounds j = (List.range P.A.length).filterMap
          (fun i => if (P.A.getD i []).getD j 0 > 0 then some (solveRow P j i) else none))
    ∧ (∀ a p b q : Int, p ≠ 0 → q ≠ 0 →
        ∃ P, Polyhedron.from_loop_ranges ["i"]
            [⟨.affine ⟨a, [("n", p)]⟩, .affine ⟨b, [("m", q)]⟩, none⟩] = .ok P
          ∧ P.lower_bounds 0 = [⟨a, [("n", p)]⟩]
          ∧ P.upper_bounds 0 = [⟨b, [("m", q)]⟩])
    ∧ (∀ a b : Int,
        ∃ P, Polyhedron.from_loop_ranges ["i"]
            [⟨.affine ⟨a, []⟩, .affine ⟨b, []⟩, none⟩] = .ok P
          ∧ P.lower_bounds 0 = [⟨a, []⟩]
          ∧ P.upper_bounds 0 = [⟨b, []⟩]) := by
  refine ⟨?_, ?_, ?_⟩
  · intro P j
    constructor
    · rw [Polyhedron.lower_bounds, foldl_if_filterMap]
      rw [List.nil_append]
    · rw [Polyhedron.upper_bounds, foldl_if_filterMap]
      rw [List.nil_append]
  · intro a p b q hp hq
    refine ⟨⟨[[-1, 0, p], [1, -q, 0]], [-a, b], ["i", "m", "n"]⟩,
      c8_single_matrix a p b q hp hq, ?_, ?_⟩
    · simp [Polyhedron.lower_bounds, solveRow, Affine.divC, normCoeffs, addTo, hp,
        int_ediv_negone, List.range_succ]
    · simp [Polyhedron.upper_bounds, solveRow, Affine.divC, normCoeffs, addTo, hq,
        int_ediv_negone, List.range_succ]
  · intro a b
    refine ⟨⟨[[-1], [1]], [-a, b], ["i"]⟩, c8_const_matrix a b, ?_, ?_⟩
    · simp [Polyhedron.lower_bounds, solveRow, Affine.divC, normCoeffs,
        int_ediv_negone, List.range_succ]
    · simp [Polyhedron.upper_bounds, solveRow, Affine.divC, normCoeffs,
        int_ediv_negone, List.range_succ]

/-- Witness for C8: the single loop over one plus one times n to ten plus one
times m builds a polyhedron whose level-zero bound queries return those very
bounds, and the loop over two to nine returns two and nine. -/
theorem polyhedron_bounds_c8_witness :
    (∃ P, Polyhedron.from_loop_ranges ["i"]
        [⟨.affine ⟨1, [("n", 1)]⟩, .affine ⟨10, [("m", 1)]⟩, none⟩] = .ok P
      ∧ P.lower_bounds 0 = [⟨1, [("n", 1)]⟩]
      ∧ P.upper_bounds 0 = [⟨10, [("m", 1)]⟩])
    ∧ (∃ P, Polyhedron.from_loop_ranges ["i"]
        [⟨.affine ⟨2, []⟩, .affine ⟨9, []⟩, none⟩] = .ok P
      ∧ P.lower_bounds 0 = [⟨2, []⟩]
      ∧ P.upper_bounds 0 = [⟨9, []⟩]) :=
  ⟨polyhedron_bounds_c8.2.1 1 1 10 1 (by decide) (by decide),
   polyhedron_bounds_c8.2.2 2 9⟩

end Loki
